import Mathlib

/-!
Shallow embedding of `src/heap/fibonacci.rs` (rudac): the `InternalTree`
node type and the `FibonacciHeap` built on it.  Payloads are `Int`
(a concrete instance of the `T: Ord` type parameter).  Rust panics
(`unwrap` on `None`, out-of-bounds `Vec` indexing) are modelled by
`Option`-valued functions returning `none`.
-/

/-- `InternalTree<T>`: `degree`, `payload: Option<T>`, `children_list`. -/
inductive InternalTree : Type where
  | node : Nat → Option Int → List InternalTree → InternalTree
deriving Repr

/-- Field accessor for `degree`. -/
def InternalTree.degree : InternalTree → Nat
  | .node d _ _ => d

/-- `InternalTree::peek_payload` (also the `payload` field). -/
def InternalTree.peek_payload : InternalTree → Option Int
  | .node _ p _ => p

/-- Field accessor for `children_list`. -/
def InternalTree.children_list : InternalTree → List InternalTree
  | .node _ _ c => c

/-- `InternalTree::init`: degree 0, payload present, no children. -/
def InternalTree.init (payload : Int) : InternalTree :=
  .node 0 (some payload) []

/-- `InternalTree::is_smaller_or_equal`: compares the two payloads;
panics (`none`) if either payload is absent. -/
def InternalTree.is_smaller_or_equal (t1 t2 : InternalTree) : Option Bool :=
  match t1.peek_payload, t2.peek_payload with
  | some p1, some p2 => some (decide (p1 ≤ p2))
  | _, _ => none

/-- `InternalTree::add_child`: append to `children_list`, `degree += 1`. -/
def InternalTree.add_child (t c : InternalTree) : InternalTree :=
  .node (t.degree + 1) t.peek_payload (t.children_list ++ [c])

/-- `InternalTree::merge`: the smaller-or-equal node becomes the parent,
the other is appended to its children. -/
def InternalTree.merge (t1 t2 : InternalTree) : Option InternalTree :=
  match InternalTree.is_smaller_or_equal t1 t2 with
  | none => none
  | some true => some (t1.add_child t2)
  | some false => some (t2.add_child t1)

mutual
/-- Number of nodes in a tree (the node itself plus all descendants). -/
def InternalTree.count : InternalTree → Nat
  | .node _ _ cs => 1 + InternalTree.countList cs
/-- Total node count of a list of trees. -/
def InternalTree.countList : List InternalTree → Nat
  | [] => 0
  | t :: ts => t.count + InternalTree.countList ts
end

mutual
/-- The payloads present in a tree, in preorder. -/
def InternalTree.elems : InternalTree → List Int
  | .node _ p cs =>
    (match p with | some v => [v] | none => []) ++ InternalTree.elemsList cs
/-- The payloads present in a list of trees. -/
def InternalTree.elemsList : List InternalTree → List Int
  | [] => []
  | t :: ts => t.elems ++ InternalTree.elemsList ts
end

mutual
/-- Every node of the tree still holds its payload ("intact"). -/
def InternalTree.intactB : InternalTree → Bool
  | .node _ p cs => p.isSome && InternalTree.intactListB cs
/-- `intactB` for a list of trees. -/
def InternalTree.intactListB : List InternalTree → Bool
  | [] => true
  | t :: ts => t.intactB && InternalTree.intactListB ts
end

/-- `payLeB p q` holds when payloads `p` and `q`, if both present,
satisfy `p ≤ q`. -/
def payLeB : Option Int → Option Int → Bool
  | some a, some b => decide (a ≤ b)
  | _, _ => true

mutual
/-- Heap order: every child's payload is `≥` its parent's payload,
recursively throughout the tree. -/
def InternalTree.hordB : InternalTree → Bool
  | .node _ p cs => InternalTree.hordChildren p cs
/-- Each tree in the list is heap-ordered and has root payload `≥ p`. -/
def InternalTree.hordChildren : Option Int → List InternalTree → Bool
  | _, [] => true
  | p, c :: cs => payLeB p c.peek_payload && c.hordB && InternalTree.hordChildren p cs
end

mutual
/-- Binomial-tree shape: a node of degree `d` has children of degrees
`0, 1, …, d-1` in list order, each itself binomial. -/
def InternalTree.binB : InternalTree → Bool
  | .node d _ cs => (cs.length == d) && InternalTree.binSeq 0 cs
/-- The trees in the list are binomial with degrees `i, i+1, …`. -/
def InternalTree.binSeq : Nat → List InternalTree → Bool
  | _, [] => true
  | i, c :: cs => (c.degree == i) && c.binB && InternalTree.binSeq (i + 1) cs
end

mutual
/-- `InternalTree::_preorder`: payload (followed by a space) then the
children in order. -/
def InternalTree.preorderAux : InternalTree → String
  | .node _ p cs =>
    (match p with | some v => toString v ++ " " | none => "") ++
      InternalTree.preorderAuxList cs
/-- `_preorder` over a child list. -/
def InternalTree.preorderAuxList : List InternalTree → String
  | [] => ""
  | t :: ts => t.preorderAux ++ InternalTree.preorderAuxList ts
end

/-- Model of Rust `str::trim`: drop leading and trailing whitespace
characters. -/
def rustTrim (s : String) : String :=
  ⟨((s.data.dropWhile Char.isWhitespace).reverse.dropWhile
      Char.isWhitespace).reverse⟩

/-- `InternalTree::preorder`: the `_preorder` string, trimmed. -/
def InternalTree.preorder (t : InternalTree) : String :=
  rustTrim t.preorderAux

/-- `FibonacciHeap<T>`: root list, element count, and min pointer. -/
structure FibonacciHeap : Type where
  children_list : List InternalTree
  size : Nat
  min_pointer : Option InternalTree
deriving Repr

/-- `FibonacciHeap::init`: empty roots, size 0, no min. -/
def FibonacciHeap.init : FibonacciHeap :=
  { children_list := [], size := 0, min_pointer := none }

/-- `FibonacciHeap::is_empty`. -/
def FibonacciHeap.is_empty (h : FibonacciHeap) : Bool :=
  h.size == 0

/-- `FibonacciHeap::push`: wrap the value in a singleton node; it becomes
`min` if the heap was empty or the new value is `≤` the current minimum
(demoting the old min to the back of the root list); size increments.
Panics (`none`) only if the current min's payload is absent. -/
def FibonacciHeap.push (h : FibonacciHeap) (payload : Int) : Option FibonacciHeap :=
  let new_node := InternalTree.init payload
  match h.min_pointer with
  | none =>
    some { children_list := h.children_list, size := h.size + 1,
           min_pointer := some new_node }
  | some m =>
    match InternalTree.is_smaller_or_equal new_node m with
    | none => none
    | some true =>
      some { children_list := h.children_list ++ [m], size := h.size + 1,
             min_pointer := some new_node }
    | some false =>
      some { children_list := h.children_list ++ [new_node], size := h.size + 1,
             min_pointer := some m }

/-- `FibonacciHeap::merge`: concatenate root lists; if `h2.min ≤ h1.min`
demote `h1.min` into the roots and adopt `h2.min`, summing sizes;
otherwise re-`push` `h2.min`'s payload (the rest of that tree is
dropped by `get_payload`) and add `h2.size - 1`.  Unwraps both min
pointers unconditionally: `none` when either heap is empty. -/
def FibonacciHeap.merge (h1 h2 : FibonacciHeap) : Option FibonacciHeap :=
  let roots := h1.children_list ++ h2.children_list
  match h2.min_pointer, h1.min_pointer with
  | some m2, some m1 =>
    match InternalTree.is_smaller_or_equal m2 m1 with
    | none => none
    | some true =>
      some { children_list := roots ++ [m1], size := h1.size + h2.size,
             min_pointer := some m2 }
    | some false =>
      match m2.peek_payload with
      | none => none
      | some p2 =>
        match FibonacciHeap.push
            { children_list := roots, size := h1.size, min_pointer := some m1 } p2 with
        | none => none
        | some h' =>
          some { h' with size := h'.size + (h2.size - 1) }
  | _, _ => none

/-- Exact-arithmetic model of the consolidation array size
`((size as f32).log(1.61803_f32) + 1.0) as usize`: one more than the
largest `k` with `1.61803 ^ k ≤ n` (the literal read as the rational
`161803 / 100000`). -/
def consolidate_array_size (n : Nat) : Nat :=
  Nat.findGreatest (fun k => 161803 ^ k ≤ n * 100000 ^ k) n + 1

/-- The inner `while !a[d].is_none()` loop of `consolidate`: merge the
carried tree `x` with the occupant of slot `d` until a free slot is
found, then store `x` there.  Indexing out of bounds is a panic
(`none`). -/
def FibonacciHeap.placeTree (a : List (Option InternalTree)) (x : InternalTree)
    (d : Nat) : Option (List (Option InternalTree)) :=
  if hd : d < a.length then
    match a.get ⟨d, hd⟩ with
    | none => some (a.set d (some x))
    | some y =>
      match InternalTree.merge x y with
      | none => none
      | some x' => FibonacciHeap.placeTree (a.set d none) x' (d + 1)
  else none
termination_by a.length - d
decreasing_by simp [List.length_set]; omega

/-- The outer drain loop of `consolidate`: pop roots front-to-back and
place each into the degree-indexed array. -/
def FibonacciHeap.drainRoots (a : List (Option InternalTree)) :
    List InternalTree → Option (List (Option InternalTree))
  | [] => some a
  | x :: rest =>
    match FibonacciHeap.placeTree a x x.degree with
    | none => none
    | some a' => FibonacciHeap.drainRoots a' rest

/-- The final sweep of `consolidate`: fold the array slots in ascending
order into a fresh min pointer and root list using the same
compare-and-promote rule as `push`. -/
def FibonacciHeap.sweep : List (Option InternalTree) → Option InternalTree →
    List InternalTree → Option (Option InternalTree × List InternalTree)
  | [], minP, roots => some (minP, roots)
  | none :: rest, minP, roots => FibonacciHeap.sweep rest minP roots
  | some t :: rest, none, roots => FibonacciHeap.sweep rest (some t) roots
  | some t :: rest, some m, roots =>
    match InternalTree.is_smaller_or_equal t m with
    | none => none
    | some true => FibonacciHeap.sweep rest (some t) (roots ++ [m])
    | some false => FibonacciHeap.sweep rest (some m) (roots ++ [t])

/-- `FibonacciHeap::consolidate`: no-op when size is 0; otherwise drain
the min tree and all roots into a degree-indexed array (merging
equal-degree trees), then rebuild the root list and min pointer. -/
def FibonacciHeap.consolidate (h : FibonacciHeap) : Option FibonacciHeap :=
  if h.size = 0 then some h
  else
    let array_size := consolidate_array_size h.size
    let a : List (Option InternalTree) := List.replicate array_size none
    match h.min_pointer with
    | none => none
    | some m =>
      match FibonacciHeap.drainRoots a (m :: h.children_list) with
      | none => none
      | some a' =>
        match FibonacciHeap.sweep a' none [] with
        | none => none
        | some (minP, roots) =>
          some { children_list := roots, size := h.size, min_pointer := minP }

/-- `FibonacciHeap::pop`: `none` result value on an empty heap; otherwise
take the min tree, decrement size, move its children to the back of the
root list, extract its payload, and (if still non-empty) seed a new min
from the front of the root list and consolidate. -/
def FibonacciHeap.pop (h : FibonacciHeap) : Option (Option Int × FibonacciHeap) :=
  if h.size = 0 then some (none, h)
  else
    match h.min_pointer with
    | none => none
    | some min_node =>
      let sz := h.size - 1
      let roots := h.children_list ++ min_node.children_list
      match min_node.peek_payload with
      | none => none
      | some payload =>
        if sz = 0 then
          some (some payload, { children_list := roots, size := 0, min_pointer := none })
        else
          match FibonacciHeap.consolidate
              { children_list := roots.tail, size := sz, min_pointer := roots.head? } with
          | none => none
          | some h' => some (some payload, h')

/-- `FibonacciHeap::preorder`: the `Min:` line (when min is present)
followed by one `Tree k:` line per root, 1-indexed. -/
def FibonacciHeap.treeLines : Nat → List InternalTree → String
  | _, [] => ""
  | i, t :: ts =>
    "Tree " ++ toString i ++ ": " ++ t.preorder ++ "\n" ++
      FibonacciHeap.treeLines (i + 1) ts

/-- `FibonacciHeap::preorder` (whole-heap diagnostic dump). -/
def FibonacciHeap.preorder (h : FibonacciHeap) : String :=
  (match h.min_pointer with
   | some m => "Min: " ++ m.preorder ++ "\n"
   | none => "") ++ FibonacciHeap.treeLines 1 h.children_list

/-- All trees held by the heap: the min tree (when present) then the
root list. -/
def FibonacciHeap.trees (h : FibonacciHeap) : List InternalTree :=
  (match h.min_pointer with | some m => [m] | none => []) ++ h.children_list

/-- All payloads present in the heap. -/
def FibonacciHeap.elems (h : FibonacciHeap) : List Int :=
  InternalTree.elemsList h.trees

/-- Sequence of pushes starting from a given heap. -/
def FibonacciHeap.pushList (h : FibonacciHeap) : List Int → Option FibonacciHeap
  | [] => some h
  | v :: vs =>
    match h.push v with
    | none => none
    | some h' => h'.pushList vs

/-- `k` consecutive pops, collecting the returned values. -/
def FibonacciHeap.popN : Nat → FibonacciHeap →
    Option (List (Option Int) × FibonacciHeap)
  | 0, h => some ([], h)
  | k + 1, h =>
    match h.pop with
    | none => none
    | some (v, h') =>
      match FibonacciHeap.popN k h' with
      | none => none
      | some (vs, h'') => some (v :: vs, h'')

/-- Intact and heap-ordered: the properties of trees preserved by every
heap operation that succeeds. -/
def InternalTree.twB (t : InternalTree) : Bool :=
  t.intactB && t.hordB

/-- Fully well-formed tree: intact, heap-ordered and binomial. -/
def InternalTree.wfTreeB (t : InternalTree) : Bool :=
  t.intactB && t.hordB && t.binB

/-- The trees held in one consolidation array slot. -/
def optTrees : Option InternalTree → List InternalTree
  | some t => [t]
  | none => []

/-- All trees held in the consolidation array, in slot order. -/
def slotTrees : List (Option InternalTree) → List InternalTree
  | [] => []
  | o :: rest => optTrees o ++ slotTrees rest

/-- Invariant of the consolidation array: an occupied slot `i` holds a
fully well-formed tree of degree `i`. -/
def SlotInv (a : List (Option InternalTree)) : Prop :=
  ∀ (i : Nat) (t : InternalTree), a[i]? = some (some t) →
    t.wfTreeB = true ∧ t.degree = i

/-- Full heap well-formedness: every held tree is intact, heap-ordered
and binomial; `size` is the exact total node count; an absent min means
an empty heap; and the min tree's root payload is `≤` every root's
payload. -/
def FibonacciHeap.wfB (h : FibonacciHeap) : Bool :=
  h.trees.all (fun t => t.wfTreeB) &&
  (h.size == InternalTree.countList h.trees) &&
  (match h.min_pointer with
   | none => h.children_list.isEmpty && (h.size == 0)
   | some m => h.children_list.all (fun t => payLeB m.peek_payload t.peek_payload))

/-- Heaps reachable from `init` by `push`, `merge` of non-empty operands,
and `pop`, where each operation completed without a panic. -/
inductive FibonacciHeap.Reachable : FibonacciHeap → Prop where
  | init : FibonacciHeap.Reachable FibonacciHeap.init
  | push (h h' : FibonacciHeap) (v : Int) : FibonacciHeap.Reachable h →
      h.push v = some h' → FibonacciHeap.Reachable h'
  | merge (h1 h2 h' : FibonacciHeap) : FibonacciHeap.Reachable h1 →
      FibonacciHeap.Reachable h2 → h1.size ≠ 0 → h2.size ≠ 0 →
      FibonacciHeap.merge h1 h2 = some h' → FibonacciHeap.Reachable h'
  | pop (h h' : FibonacciHeap) (v : Option Int) : FibonacciHeap.Reachable h →
      h.pop = some (v, h') → FibonacciHeap.Reachable h'

/-! ## Basic lemmas about trees -/

@[simp] theorem InternalTree.degree_node (d : Nat) (p : Option Int)
    (cs : List InternalTree) : (InternalTree.node d p cs).degree = d := rfl

@[simp] theorem InternalTree.peek_payload_node (d : Nat) (p : Option Int)
    (cs : List InternalTree) : (InternalTree.node d p cs).peek_payload = p := rfl

@[simp] theorem InternalTree.children_list_node (d : Nat) (p : Option Int)
    (cs : List InternalTree) : (InternalTree.node d p cs).children_list = cs := rfl

theorem InternalTree.countList_append (xs ys : List InternalTree) :
    InternalTree.countList (xs ++ ys) =
      InternalTree.countList xs + InternalTree.countList ys := by
  induction xs with
  | nil => simp [InternalTree.countList]
  | cons t ts ih => simp [InternalTree.countList, ih]; omega

theorem InternalTree.elemsList_append (xs ys : List InternalTree) :
    InternalTree.elemsList (xs ++ ys) =
      InternalTree.elemsList xs ++ InternalTree.elemsList ys := by
  induction xs with
  | nil => simp [InternalTree.elemsList]
  | cons t ts ih => simp [InternalTree.elemsList, ih]

theorem InternalTree.intactListB_append (xs ys : List InternalTree) :
    InternalTree.intactListB (xs ++ ys) =
      (InternalTree.intactListB xs && InternalTree.intactListB ys) := by
  induction xs with
  | nil => simp [InternalTree.intactListB]
  | cons t ts ih => simp [InternalTree.intactListB, ih, Bool.and_assoc]

theorem InternalTree.hordChildren_append (p : Option Int) (xs ys : List InternalTree) :
    InternalTree.hordChildren p (xs ++ ys) =
      (InternalTree.hordChildren p xs && InternalTree.hordChildren p ys) := by
  induction xs with
  | nil => simp [InternalTree.hordChildren]
  | cons t ts ih => simp [InternalTree.hordChildren, ih, Bool.and_assoc]

theorem InternalTree.binSeq_append (i : Nat) (xs ys : List InternalTree) :
    InternalTree.binSeq i (xs ++ ys) =
      (InternalTree.binSeq i xs && InternalTree.binSeq (i + xs.length) ys) := by
  induction xs generalizing i with
  | nil => simp [InternalTree.binSeq]
  | cons t ts ih =>
    simp only [List.cons_append, InternalTree.binSeq, List.append_eq, ih,
      Bool.and_assoc, List.length_cons]
    have hi : i + 1 + ts.length = i + (ts.length + 1) := by omega
    rw [hi]

theorem InternalTree.count_pos (t : InternalTree) : 1 ≤ t.count := by
  cases t with
  | node d p cs => simp [InternalTree.count]

theorem InternalTree.countList_perm {cs cs' : List InternalTree}
    (h : cs.Perm cs') : InternalTree.countList cs = InternalTree.countList cs' := by
  induction h with
  | nil => rfl
  | cons x _ ih => simp [InternalTree.countList, ih]
  | swap x y l => simp [InternalTree.countList]; omega
  | trans _ _ ih1 ih2 => omega

theorem InternalTree.elemsList_perm {cs cs' : List InternalTree}
    (h : cs.Perm cs') : (InternalTree.elemsList cs).Perm (InternalTree.elemsList cs') := by
  induction h with
  | nil => exact List.Perm.refl _
  | cons x _ ih => exact ih.append_left _
  | swap x y l =>
    simp only [InternalTree.elemsList, ← List.append_assoc]
    exact (List.perm_append_comm).append_right _
  | trans _ _ ih1 ih2 => exact ih1.trans ih2

mutual
theorem InternalTree.intact_elems_length :
    ∀ t : InternalTree, t.intactB = true → t.elems.length = t.count
  | .node d p cs, h => by
    simp only [InternalTree.intactB, Bool.and_eq_true] at h
    cases p with
    | none => simp at h
    | some v =>
      simp [InternalTree.elems, InternalTree.count,
        InternalTree.intactList_elems_length cs h.2]
      omega
theorem InternalTree.intactList_elems_length :
    ∀ cs : List InternalTree, InternalTree.intactListB cs = true →
      (InternalTree.elemsList cs).length = InternalTree.countList cs
  | [], _ => rfl
  | t :: ts, h => by
    simp only [InternalTree.intactListB, Bool.and_eq_true] at h
    simp [InternalTree.elemsList, InternalTree.countList,
      InternalTree.intact_elems_length t h.1,
      InternalTree.intactList_elems_length ts h.2]
end

theorem InternalTree.intactListB_mem {cs : List InternalTree}
    (h : InternalTree.intactListB cs = true) :
    ∀ t ∈ cs, t.intactB = true := by
  induction cs with
  | nil => simp
  | cons c rest ih =>
    simp only [InternalTree.intactListB, Bool.and_eq_true] at h
    intro t ht
    rcases List.mem_cons.mp ht with rfl | ht
    · exact h.1
    · exact ih h.2 t ht

theorem InternalTree.hordChildren_mem {p : Option Int} {cs : List InternalTree}
    (h : InternalTree.hordChildren p cs = true) :
    ∀ t ∈ cs, payLeB p t.peek_payload = true ∧ t.hordB = true := by
  induction cs with
  | nil => simp
  | cons c rest ih =>
    simp only [InternalTree.hordChildren, Bool.and_eq_true] at h
    intro t ht
    rcases List.mem_cons.mp ht with rfl | ht
    · exact ⟨h.1.1, h.1.2⟩
    · exact ih h.2 t ht

theorem InternalTree.binSeq_mem {i : Nat} {cs : List InternalTree}
    (h : InternalTree.binSeq i cs = true) :
    ∀ t ∈ cs, t.binB = true := by
  induction cs generalizing i with
  | nil => simp
  | cons c rest ih =>
    simp only [InternalTree.binSeq, Bool.and_eq_true] at h
    intro t ht
    rcases List.mem_cons.mp ht with rfl | ht
    · exact h.1.2
    · exact ih h.2 t ht

theorem InternalTree.mem_elemsList {q : Int} {cs : List InternalTree} :
    q ∈ InternalTree.elemsList cs ↔ ∃ t ∈ cs, q ∈ t.elems := by
  induction cs with
  | nil => simp [InternalTree.elemsList]
  | cons c rest ih =>
    simp only [InternalTree.elemsList, List.mem_append, ih]
    constructor
    · rintro (hq | ⟨t, ht, hq⟩)
      · exact ⟨c, List.mem_cons_self c rest, hq⟩
      · exact ⟨t, List.mem_cons_of_mem c ht, hq⟩
    · rintro ⟨t, ht, hq⟩
      rcases List.mem_cons.mp ht with rfl | ht
      · exact Or.inl hq
      · exact Or.inr ⟨t, ht, hq⟩

mutual
theorem InternalTree.hord_all_ge :
    ∀ t : InternalTree, ∀ p : Int, t.intactB = true → t.hordB = true →
      t.peek_payload = some p → ∀ q ∈ t.elems, p ≤ q
  | .node d p0 cs, p, hint, hord, hpay, q, hq => by
    simp only [InternalTree.peek_payload_node] at hpay
    subst hpay
    simp only [InternalTree.intactB, Bool.and_eq_true] at hint
    simp only [InternalTree.hordB] at hord
    simp only [InternalTree.elems, List.mem_append, List.mem_singleton] at hq
    rcases hq with hq | hq
    · omega
    · exact InternalTree.hord_all_ge_list cs p hint.2 hord q hq
theorem InternalTree.hord_all_ge_list :
    ∀ cs : List InternalTree, ∀ p : Int, InternalTree.intactListB cs = true →
      InternalTree.hordChildren (some p) cs = true →
      ∀ q ∈ InternalTree.elemsList cs, p ≤ q
  | [], p, _, _, q, hq => by simp [InternalTree.elemsList] at hq
  | c :: rest, p, hint, hord, q, hq => by
    simp only [InternalTree.intactListB, Bool.and_eq_true] at hint
    simp only [InternalTree.hordChildren, Bool.and_eq_true] at hord
    simp only [InternalTree.elemsList, List.mem_append] at hq
    rcases hq with hq | hq
    · cases hc : c.peek_payload with
      | none =>
        cases c with
        | node dc pc cc =>
          simp only [InternalTree.peek_payload_node] at hc
          subst hc
          simp [InternalTree.intactB] at hint
      | some pc =>
        have hple : p ≤ pc := by
          have := hord.1.1
          simp [payLeB, hc] at this
          exact this
        exact le_trans hple (InternalTree.hord_all_ge c pc hint.1 hord.1.2 hc q hq)
    · exact InternalTree.hord_all_ge_list rest p hint.2 hord.2 q hq
end

mutual
theorem InternalTree.bin_count :
    ∀ t : InternalTree, t.binB = true → t.count = 2 ^ t.degree
  | .node d p cs, h => by
    simp only [InternalTree.binB, Bool.and_eq_true, beq_iff_eq] at h
    have := InternalTree.bin_count_list cs 0 h.2
    simp only [InternalTree.count, InternalTree.degree_node]
    simp only [Nat.zero_add] at this
    rw [h.1] at this
    omega
theorem InternalTree.bin_count_list :
    ∀ cs : List InternalTree, ∀ i : Nat, InternalTree.binSeq i cs = true →
      InternalTree.countList cs + 2 ^ i = 2 ^ (i + cs.length)
  | [], i, _ => by simp [InternalTree.countList]
  | c :: rest, i, h => by
    simp only [InternalTree.binSeq, Bool.and_eq_true, beq_iff_eq] at h
    have hc := InternalTree.bin_count c h.1.2
    rw [h.1.1] at hc
    have hrest := InternalTree.bin_count_list rest (i + 1) h.2
    simp only [InternalTree.countList, List.length_cons]
    have h2 : 2 ^ (i + 1) = 2 ^ i + 2 ^ i := by rw [pow_succ]; omega
    have harg : i + 1 + rest.length = i + (rest.length + 1) := by omega
    rw [harg] at hrest
    omega
end

theorem InternalTree.merge_full (x y : InternalTree) (d : Nat)
    (hxw : x.wfTreeB = true) (hyw : y.wfTreeB = true)
    (hxd : x.degree = d) (hyd : y.degree = d) :
    ∃ z : InternalTree, InternalTree.merge x y = some z ∧
      z.wfTreeB = true ∧ z.degree = d + 1 ∧
      z.count = x.count + y.count ∧
      (z.elems).Perm (x.elems ++ y.elems) := by
  cases x with
  | node dx px csx =>
  cases y with
  | node dy py csy =>
  simp only [InternalTree.degree_node] at hxd hyd
  subst hxd; subst hyd
  simp only [InternalTree.wfTreeB, Bool.and_eq_true] at hxw hyw
  obtain ⟨⟨hxi, hxh⟩, hxb⟩ := hxw
  obtain ⟨⟨hyi, hyh⟩, hyb⟩ := hyw
  have hxi' := hxi; have hyi' := hyi
  simp only [InternalTree.intactB, Bool.and_eq_true, Option.isSome_iff_exists] at hxi' hyi'
  obtain ⟨⟨vx, hvx⟩, hxcs⟩ := hxi'
  obtain ⟨⟨vy, hvy⟩, hycs⟩ := hyi'
  subst hvx; subst hvy
  simp only [InternalTree.binB, Bool.and_eq_true, beq_iff_eq] at hxb hyb
  have hxh' : InternalTree.hordChildren (some vx) csx = true := hxh
  have hyh' : InternalTree.hordChildren (some vy) csy = true := hyh
  by_cases hle : vx ≤ vy
  · refine ⟨(InternalTree.node dy (some vx) csx).add_child
      (InternalTree.node dy (some vy) csy), ?_, ?_, ?_, ?_, ?_⟩
    · simp [InternalTree.merge, InternalTree.is_smaller_or_equal, hle]
    · simp only [InternalTree.add_child, InternalTree.wfTreeB, InternalTree.intactB,
        InternalTree.hordB, InternalTree.binB, InternalTree.peek_payload_node,
        InternalTree.children_list_node, InternalTree.degree_node,
        InternalTree.intactListB_append, InternalTree.hordChildren_append,
        InternalTree.binSeq_append, Bool.and_eq_true, List.length_append,
        beq_iff_eq]
      refine ⟨⟨⟨by simp, ?_, ?_⟩, ?_, ?_⟩, ?_, ?_, ?_⟩
      · exact hxcs
      · simp [InternalTree.intactListB, hyi]
      · exact hxh
      · simp [InternalTree.hordChildren, payLeB, hle, InternalTree.hordB, hyh, hyh']
      · simp [List.length_singleton]; omega
      · exact hxb.2
      · simp [InternalTree.binSeq, hxb.1, InternalTree.binB, hyb.1, hyb.2]
    · simp [InternalTree.add_child]
    · simp [InternalTree.add_child, InternalTree.count, InternalTree.countList_append,
        InternalTree.countList]
      omega
    · simp [InternalTree.add_child, InternalTree.elems, InternalTree.elemsList_append,
        InternalTree.elemsList]
  · refine ⟨(InternalTree.node dy (some vy) csy).add_child
      (InternalTree.node dy (some vx) csx), ?_, ?_, ?_, ?_, ?_⟩
    · simp [InternalTree.merge, InternalTree.is_smaller_or_equal, hle]
    · simp only [InternalTree.add_child, InternalTree.wfTreeB, InternalTree.intactB,
        InternalTree.hordB, InternalTree.binB, InternalTree.peek_payload_node,
        InternalTree.children_list_node, InternalTree.degree_node,
        InternalTree.intactListB_append, InternalTree.hordChildren_append,
        InternalTree.binSeq_append, Bool.and_eq_true, List.length_append,
        beq_iff_eq]
      have hle' : vy ≤ vx := le_of_not_le hle
      refine ⟨⟨⟨by simp, ?_, ?_⟩, ?_, ?_⟩, ?_, ?_, ?_⟩
      · exact hycs
      · simp [InternalTree.intactListB, hxi]
      · exact hyh
      · simp [InternalTree.hordChildren, payLeB, hle', InternalTree.hordB, hxh, hxh']
      · simp [List.length_singleton]; omega
      · exact hyb.2
      · simp [InternalTree.binSeq, hyb.1, InternalTree.binB, hxb.1, hxb.2]
    · simp [InternalTree.add_child]
    · simp [InternalTree.add_child, InternalTree.count, InternalTree.countList_append,
        InternalTree.countList]
      omega
    · refine List.Perm.trans ?_ List.perm_append_comm
      simp [InternalTree.add_child, InternalTree.elems, InternalTree.elemsList_append,
        InternalTree.elemsList]

theorem InternalTree.merge_payloads {x y z : InternalTree}
    (hm : InternalTree.merge x y = some z) :
    ∃ px py, x.peek_payload = some px ∧ y.peek_payload = some py := by
  cases hx : x.peek_payload with
  | none => simp [InternalTree.merge, InternalTree.is_smaller_or_equal, hx] at hm
  | some px =>
    cases hy : y.peek_payload with
    | none => simp [InternalTree.merge, InternalTree.is_smaller_or_equal, hx, hy] at hm
    | some py => exact ⟨px, py, rfl, rfl⟩

theorem InternalTree.merge_tw {x y z : InternalTree}
    (hm : InternalTree.merge x y = some z)
    (hx : x.twB = true) (hy : y.twB = true) : z.twB = true := by
  obtain ⟨px, py, hpx, hpy⟩ := InternalTree.merge_payloads hm
  cases x with
  | node dx px0 csx =>
  cases y with
  | node dy py0 csy =>
  simp only [InternalTree.peek_payload_node] at hpx hpy
  subst hpx; subst hpy
  simp only [InternalTree.twB, Bool.and_eq_true] at hx hy
  obtain ⟨hxi, hxh⟩ := hx
  obtain ⟨hyi, hyh⟩ := hy
  have hxcs : InternalTree.intactListB csx = true := by
    simp only [InternalTree.intactB, Bool.and_eq_true] at hxi; exact hxi.2
  have hycs : InternalTree.intactListB csy = true := by
    simp only [InternalTree.intactB, Bool.and_eq_true] at hyi; exact hyi.2
  have hxh' : InternalTree.hordChildren (some px) csx = true := hxh
  have hyh' : InternalTree.hordChildren (some py) csy = true := hyh
  by_cases hle : px ≤ py
  · have hz : z = (InternalTree.node dx (some px) csx).add_child
        (InternalTree.node dy (some py) csy) := by
      simp [InternalTree.merge, InternalTree.is_smaller_or_equal, hle] at hm
      exact hm.symm
    subst hz
    simp only [InternalTree.add_child, InternalTree.twB, InternalTree.intactB,
      InternalTree.hordB, InternalTree.peek_payload_node,
      InternalTree.children_list_node, InternalTree.intactListB_append,
      InternalTree.hordChildren_append, Bool.and_eq_true]
    refine ⟨⟨by simp, hxcs, ?_⟩, hxh', ?_⟩
    · simp [InternalTree.intactListB, hyi]
    · simp [InternalTree.hordChildren, payLeB, hle, InternalTree.hordB, hyh']
  · have hz : z = (InternalTree.node dy (some py) csy).add_child
        (InternalTree.node dx (some px) csx) := by
      simp [InternalTree.merge, InternalTree.is_smaller_or_equal, hle] at hm
      exact hm.symm
    subst hz
    have hle' : py ≤ px := le_of_not_le hle
    simp only [InternalTree.add_child, InternalTree.twB, InternalTree.intactB,
      InternalTree.hordB, InternalTree.peek_payload_node,
      InternalTree.children_list_node, InternalTree.intactListB_append,
      InternalTree.hordChildren_append, Bool.and_eq_true]
    refine ⟨⟨by simp, hycs, ?_⟩, hyh', ?_⟩
    · simp [InternalTree.intactListB, hxi]
    · simp [InternalTree.hordChildren, payLeB, hle', InternalTree.hordB, hxh']

/-! ## Lemmas about the consolidation array -/

theorem slotTrees_perm_set_some {a : List (Option InternalTree)} {i : Nat}
    (hi : i < a.length) (hget : a.get ⟨i, hi⟩ = none) (x : InternalTree) :
    (slotTrees (a.set i (some x))).Perm (x :: slotTrees a) := by
  induction a generalizing i with
  | nil => simp at hi
  | cons o rest ih =>
    cases i with
    | zero =>
      simp only [List.get] at hget
      subst hget
      simp [slotTrees, optTrees, List.set]
    | succ j =>
      have hj : j < rest.length := by simp at hi; omega
      have hg : rest.get ⟨j, hj⟩ = none := hget
      have := ih hj hg
      simp only [List.set, slotTrees]
      exact (this.append_left (optTrees o)).trans List.perm_middle

theorem slotTrees_perm_of_get_some {a : List (Option InternalTree)} {i : Nat}
    (hi : i < a.length) {y : InternalTree} (hget : a.get ⟨i, hi⟩ = some y) :
    (slotTrees a).Perm (y :: slotTrees (a.set i none)) := by
  induction a generalizing i with
  | nil => simp at hi
  | cons o rest ih =>
    cases i with
    | zero =>
      simp only [List.get] at hget
      subst hget
      simp [slotTrees, optTrees, List.set]
    | succ j =>
      have hj : j < rest.length := by simp at hi; omega
      have hg : rest.get ⟨j, hj⟩ = some y := hget
      have := ih hj hg
      simp only [List.set, slotTrees]
      exact (this.append_left (optTrees o)).trans List.perm_middle

theorem SlotInv_replicate (n : Nat) : SlotInv (List.replicate n none) := by
  intro i t hit
  rw [List.getElem?_replicate] at hit
  by_cases hlt : i < n <;> simp [hlt] at hit

theorem SlotInv_set_none {a : List (Option InternalTree)} (h : SlotInv a)
    (i : Nat) : SlotInv (a.set i none) := by
  intro j t hjt
  by_cases hij : i = j
  · subst hij
    rw [List.getElem?_set] at hjt
    by_cases hlt : i < a.length <;> simp [hlt] at hjt
  · rw [List.getElem?_set_ne hij] at hjt
    exact h j t hjt

theorem SlotInv_set_some {a : List (Option InternalTree)} (h : SlotInv a)
    {x : InternalTree} {d : Nat} (hw : x.wfTreeB = true) (hd : x.degree = d) :
    SlotInv (a.set d (some x)) := by
  intro j t hjt
  by_cases hij : d = j
  · subst hij
    by_cases hlt : d < a.length
    · rw [List.getElem?_set] at hjt
      simp [hlt] at hjt
      subst hjt
      exact ⟨hw, hd⟩
    · rw [List.getElem?_set] at hjt
      simp [hlt] at hjt
  · rw [List.getElem?_set_ne hij] at hjt
    exact h j t hjt

theorem FibonacciHeap.placeTree_ok (n : Nat) (a : List (Option InternalTree))
    (x : InternalTree) (d : Nat) :
    SlotInv a → x.wfTreeB = true → x.degree = d →
    InternalTree.countList (slotTrees a) + x.count ≤ n →
    Nat.log 2 n < a.length →
    ∃ a', FibonacciHeap.placeTree a x d = some a' ∧ SlotInv a' ∧
      a'.length = a.length ∧
      InternalTree.countList (slotTrees a') =
        InternalTree.countList (slotTrees a) + x.count ∧
      (InternalTree.elemsList (slotTrees a')).Perm
        (x.elems ++ InternalTree.elemsList (slotTrees a)) := by
  induction a, x, d using FibonacciHeap.placeTree.induct with
  | case1 a x d hd hget =>
    intro hinv hwf hdeg _ _
    refine ⟨a.set d (some x), ?_, SlotInv_set_some hinv hwf hdeg,
      by simp [List.length_set], ?_, ?_⟩
    · unfold FibonacciHeap.placeTree
      rw [dif_pos hd, hget]
    · have hperm := slotTrees_perm_set_some hd hget x
      have hc := InternalTree.countList_perm hperm
      simp only [InternalTree.countList] at hc
      omega
    · have hperm := slotTrees_perm_set_some hd hget x
      have he := InternalTree.elemsList_perm hperm
      simpa only [InternalTree.elemsList] using he
  | case2 a x d hd y hget hmerge =>
    intro hinv hwf hdeg _ _
    exfalso
    have hget' : a[d]? = some (some y) := by
      rw [List.getElem?_eq_getElem hd, ← List.get_eq_getElem a ⟨d, hd⟩, hget]
    obtain ⟨hyw, hydeg⟩ := hinv d y hget'
    obtain ⟨z, hz, _⟩ := InternalTree.merge_full x y d hwf hyw hdeg hydeg
    rw [hmerge] at hz
    exact Option.noConfusion hz
  | case3 a x d hd y hget x' hmerge ih =>
    intro hinv hwf hdeg hcnt hlen
    have hget' : a[d]? = some (some y) := by
      rw [List.getElem?_eq_getElem hd, ← List.get_eq_getElem a ⟨d, hd⟩, hget]
    obtain ⟨hyw, hydeg⟩ := hinv d y hget'
    obtain ⟨z, hz, hzw, hzdeg, hzcnt, hzelems⟩ :=
      InternalTree.merge_full x y d hwf hyw hdeg hydeg
    rw [hmerge] at hz
    have hzx : z = x' := (Option.some.inj hz).symm
    subst hzx
    have hyperm := slotTrees_perm_of_get_some hd hget
    have hycnt := InternalTree.countList_perm hyperm
    simp only [InternalTree.countList] at hycnt
    have hyelems := InternalTree.elemsList_perm hyperm
    simp only [InternalTree.elemsList] at hyelems
    obtain ⟨a', heq, hinv', hlen', hcnt', helems'⟩ :=
      ih (SlotInv_set_none hinv d) hzw hzdeg
        (by omega) (by rw [List.length_set]; exact hlen)
    refine ⟨a', ?_, hinv', by rw [hlen', List.length_set], by omega, ?_⟩
    · unfold FibonacciHeap.placeTree
      rw [dif_pos hd, hget]
      show (match InternalTree.merge x y with
        | none => none
        | some x' => FibonacciHeap.placeTree (a.set d none) x' (d + 1)) = some a'
      rw [hmerge]
      exact heq
    · have step1 : (InternalTree.elemsList (slotTrees a')).Perm
          ((x.elems ++ y.elems) ++
            InternalTree.elemsList (slotTrees (a.set d none))) :=
        helems'.trans (hzelems.append_right _)
      have step2 : ((x.elems ++ y.elems) ++
          InternalTree.elemsList (slotTrees (a.set d none))).Perm
          (x.elems ++ InternalTree.elemsList (slotTrees a)) := by
        rw [List.append_assoc]
        exact List.Perm.append_left x.elems hyelems.symm
      exact step1.trans step2
  | case4 a x d hd =>
    intro _ hwf hdeg hcnt hlen
    exfalso
    have hbin : x.binB = true := by
      simp only [InternalTree.wfTreeB, Bool.and_eq_true] at hwf
      exact hwf.2
    have hxc := InternalTree.bin_count x hbin
    rw [hdeg] at hxc
    have h2d : 2 ^ d ≤ n := by omega
    have hdlog : d ≤ Nat.log 2 n := Nat.le_log_of_pow_le (by norm_num) h2d
    omega

theorem InternalTree.intact_payload {t : InternalTree} (h : t.intactB = true) :
    ∃ p, t.peek_payload = some p := by
  cases t with
  | node d p cs =>
    simp only [InternalTree.intactB, Bool.and_eq_true, Option.isSome_iff_exists] at h
    simpa using h.1

theorem payLeB_trans {a b : Int} {c : Option Int}
    (h1 : payLeB (some a) (some b) = true) (h2 : payLeB (some b) c = true) :
    payLeB (some a) c = true := by
  cases c with
  | none => simp [payLeB]
  | some cv =>
    simp only [payLeB, decide_eq_true_eq] at h1 h2 ⊢
    omega

theorem FibonacciHeap.sweep_perm :
    ∀ (slots : List (Option InternalTree)) (minP : Option InternalTree)
      (roots : List InternalTree) (minP' : Option InternalTree)
      (roots' : List InternalTree),
    FibonacciHeap.sweep slots minP roots = some (minP', roots') →
    (optTrees minP' ++ roots').Perm (slotTrees slots ++ optTrees minP ++ roots) := by
  intro slots minP roots
  induction slots, minP, roots using FibonacciHeap.sweep.induct with
  | case1 minP roots =>
    intro m' r' h
    simp only [FibonacciHeap.sweep, Option.some.injEq, Prod.mk.injEq] at h
    obtain ⟨h1, h2⟩ := h
    subst h1; subst h2
    simp [slotTrees]
  | case2 rest minP roots ih =>
    intro m' r' h
    simp only [FibonacciHeap.sweep] at h
    have := ih m' r' h
    simpa [slotTrees, optTrees] using this
  | case3 t rest roots ih =>
    intro m' r' h
    simp only [FibonacciHeap.sweep] at h
    refine (ih m' r' h).trans ?_
    simp only [slotTrees, optTrees, List.append_nil, List.nil_append]
    rw [← Multiset.coe_eq_coe]
    simp only [← Multiset.coe_add, Multiset.coe_singleton, Multiset.coe_nil]
    abel
  | case4 t rest m roots hcomp =>
    intro m' r' h
    simp [FibonacciHeap.sweep, hcomp] at h
  | case5 t rest m roots hcomp ih =>
    intro m' r' h
    simp only [FibonacciHeap.sweep, hcomp] at h
    refine (ih m' r' h).trans ?_
    simp only [slotTrees, optTrees]
    rw [← Multiset.coe_eq_coe]
    simp only [← Multiset.coe_add, Multiset.coe_singleton, Multiset.coe_nil]
    abel
  | case6 t rest m roots hcomp ih =>
    intro m' r' h
    simp only [FibonacciHeap.sweep, hcomp] at h
    refine (ih m' r' h).trans ?_
    simp only [slotTrees, optTrees]
    rw [← Multiset.coe_eq_coe]
    simp only [← Multiset.coe_add, Multiset.coe_singleton, Multiset.coe_nil]
    abel

theorem FibonacciHeap.sweep_ok :
    ∀ (slots : List (Option InternalTree)) (minP : Option InternalTree)
      (roots : List InternalTree),
    (∀ t ∈ slotTrees slots, t.intactB = true) →
    (∀ m, minP = some m → m.intactB = true) →
    (minP = none → roots = []) →
    (∀ m, minP = some m → ∀ t ∈ roots, payLeB m.peek_payload t.peek_payload = true) →
    ∃ minP' roots', FibonacciHeap.sweep slots minP roots = some (minP', roots') ∧
      (minP' = none → roots' = [] ∧ minP = none ∧ slotTrees slots = []) ∧
      (∀ m, minP' = some m →
        ∀ t ∈ roots', payLeB m.peek_payload t.peek_payload = true) := by
  intro slots minP roots
  induction slots, minP, roots using FibonacciHeap.sweep.induct with
  | case1 minP roots =>
    intro _ _ hnone hmin
    exact ⟨minP, roots, rfl, fun hn => ⟨hnone hn, hn, rfl⟩, hmin⟩
  | case2 rest minP roots ih =>
    intro hslots hminI hnone hmin
    have hslots' : ∀ t ∈ slotTrees rest, t.intactB = true := by
      intro t ht; exact hslots t (by simpa [slotTrees, optTrees] using ht)
    obtain ⟨m', r', heq, hn', hmin'⟩ := ih hslots' hminI hnone hmin
    refine ⟨m', r', by simpa [FibonacciHeap.sweep] using heq, ?_, hmin'⟩
    intro hn
    obtain ⟨h1, h2, h3⟩ := hn' hn
    exact ⟨h1, h2, by simpa [slotTrees, optTrees] using h3⟩
  | case3 t rest roots ih =>
    intro hslots _ hnone hmin
    have ht : t.intactB = true := hslots t (by simp [slotTrees, optTrees])
    have hslots' : ∀ u ∈ slotTrees rest, u.intactB = true := by
      intro u hu; exact hslots u (by simp [slotTrees, optTrees, hu])
    have hroots : roots = [] := hnone rfl
    subst hroots
    obtain ⟨m', r', heq, hn', hmin'⟩ := ih hslots'
      (fun m hm => by cases hm; exact ht) (by simp) (by simp)
    refine ⟨m', r', by simpa [FibonacciHeap.sweep] using heq, ?_, hmin'⟩
    intro hn
    obtain ⟨_, h2, _⟩ := hn' hn
    exact absurd h2 (by simp)
  | case4 t rest m roots hcomp =>
    intro hslots hminI _ _
    exfalso
    have ht : t.intactB = true := hslots t (by simp [slotTrees, optTrees])
    have hm : m.intactB = true := hminI m rfl
    obtain ⟨pt, hpt⟩ := InternalTree.intact_payload ht
    obtain ⟨pm, hpm⟩ := InternalTree.intact_payload hm
    simp [InternalTree.is_smaller_or_equal, hpt, hpm] at hcomp
  | case5 t rest m roots hcomp ih =>
    intro hslots hminI _ hmin
    have ht : t.intactB = true := hslots t (by simp [slotTrees, optTrees])
    have hm : m.intactB = true := hminI m rfl
    obtain ⟨pt, hpt⟩ := InternalTree.intact_payload ht
    obtain ⟨pm, hpm⟩ := InternalTree.intact_payload hm
    have hle : pt ≤ pm := by
      simp [InternalTree.is_smaller_or_equal, hpt, hpm] at hcomp
      exact hcomp
    have hslots' : ∀ u ∈ slotTrees rest, u.intactB = true := by
      intro u hu; exact hslots u (by simp [slotTrees, optTrees, hu])
    have hmin' : ∀ m0, some t = some m0 →
        ∀ u ∈ roots ++ [m], payLeB m0.peek_payload u.peek_payload = true := by
      intro m0 hm0 u hu
      cases hm0
      rw [hpt]
      rcases List.mem_append.mp hu with hu | hu
      · have := hmin m rfl u hu
        rw [hpm] at this
        exact payLeB_trans (by simp [payLeB, hle]) this
      · simp only [List.mem_singleton] at hu
        subst hu
        simp [payLeB, hpm, hle]
    obtain ⟨m', r', heq, hn', hmin''⟩ := ih hslots'
      (fun m0 hm0 => by cases hm0; exact ht) (by simp) hmin'
    refine ⟨m', r', by simpa [FibonacciHeap.sweep, hcomp] using heq, ?_, hmin''⟩
    intro hn
    obtain ⟨_, h2, _⟩ := hn' hn
    exact absurd h2 (by simp)
  | case6 t rest m roots hcomp ih =>
    intro hslots hminI _ hmin
    have ht : t.intactB = true := hslots t (by simp [slotTrees, optTrees])
    have hm : m.intactB = true := hminI m rfl
    obtain ⟨pt, hpt⟩ := InternalTree.intact_payload ht
    obtain ⟨pm, hpm⟩ := InternalTree.intact_payload hm
    have hle : pm ≤ pt := by
      simp [InternalTree.is_smaller_or_equal, hpt, hpm] at hcomp
      omega
    have hslots' : ∀ u ∈ slotTrees rest, u.intactB = true := by
      intro u hu; exact hslots u (by simp [slotTrees, optTrees, hu])
    have hmin' : ∀ m0, some m = some m0 →
        ∀ u ∈ roots ++ [t], payLeB m0.peek_payload u.peek_payload = true := by
      intro m0 hm0 u hu
      cases hm0
      rcases List.mem_append.mp hu with hu | hu
      · exact hmin m rfl u hu
      · simp only [List.mem_singleton] at hu
        subst hu
        simp [payLeB, hpm, hpt, hle]
    obtain ⟨m', r', heq, hn', hmin''⟩ := ih hslots'
      (fun m0 hm0 => by cases hm0; exact hm) (by simp) hmin'
    refine ⟨m', r', by simpa [FibonacciHeap.sweep, hcomp] using heq, ?_, hmin''⟩
    intro hn
    obtain ⟨_, h2, _⟩ := hn' hn
    exact absurd h2 (by simp)

theorem FibonacciHeap.drainRoots_ok (n : Nat) :
    ∀ (ts : List InternalTree) (a : List (Option InternalTree)),
    SlotInv a → (∀ t ∈ ts, t.wfTreeB = true) →
    InternalTree.countList (slotTrees a) + InternalTree.countList ts ≤ n →
    Nat.log 2 n < a.length →
    ∃ a', FibonacciHeap.drainRoots a ts = some a' ∧ SlotInv a' ∧
      a'.length = a.length ∧
      InternalTree.countList (slotTrees a') =
        InternalTree.countList (slotTrees a) + InternalTree.countList ts ∧
      (InternalTree.elemsList (slotTrees a')).Perm
        (InternalTree.elemsList ts ++ InternalTree.elemsList (slotTrees a)) := by
  intro ts
  induction ts with
  | nil =>
    intro a hinv _ _ _
    exact ⟨a, rfl, hinv, rfl, by simp [InternalTree.countList],
      by simp [InternalTree.elemsList]⟩
  | cons t rest ih =>
    intro a hinv hts hcnt hlen
    have htw : t.wfTreeB = true := hts t (List.mem_cons_self t rest)
    have hcnt1 : InternalTree.countList (slotTrees a) + t.count ≤ n := by
      simp only [InternalTree.countList] at hcnt
      omega
    obtain ⟨a1, heq1, hinv1, hlen1, hcnt1', helems1⟩ :=
      FibonacciHeap.placeTree_ok n a t t.degree hinv htw rfl hcnt1 hlen
    have hcnt2 : InternalTree.countList (slotTrees a1) +
        InternalTree.countList rest ≤ n := by
      simp only [InternalTree.countList] at hcnt
      omega
    obtain ⟨a', heq2, hinv2, hlen2, hcnt2', helems2⟩ :=
      ih a1 hinv1 (fun u hu => hts u (List.mem_cons_of_mem t hu)) hcnt2
        (hlen1 ▸ hlen)
    refine ⟨a', ?_, hinv2, hlen2.trans hlen1, ?_, ?_⟩
    · have hun : FibonacciHeap.drainRoots a (t :: rest) =
          match FibonacciHeap.placeTree a t t.degree with
          | none => none
          | some a1 => FibonacciHeap.drainRoots a1 rest := rfl
      rw [hun, heq1]
      exact heq2
    · rw [hcnt2', hcnt1']
      simp only [InternalTree.countList]
      omega
    · have p1 := helems2.trans (List.Perm.append_left _ helems1)
      refine p1.trans ?_
      simp only [InternalTree.elemsList]
      rw [← Multiset.coe_eq_coe]
      simp only [← Multiset.coe_add, Multiset.coe_singleton, Multiset.coe_nil]
      abel

theorem slotTrees_replicate (n : Nat) :
    slotTrees (List.replicate n none) = [] := by
  induction n with
  | zero => rfl
  | succ k ih => simp [List.replicate, slotTrees, optTrees, ih]

theorem slotTrees_mem {a : List (Option InternalTree)} {t : InternalTree}
    (ht : t ∈ slotTrees a) : ∃ i : Nat, a[i]? = some (some t) := by
  induction a with
  | nil => simp [slotTrees] at ht
  | cons o rest ih =>
    cases o with
    | none =>
      simp only [slotTrees, optTrees, List.nil_append] at ht
      obtain ⟨i, hi⟩ := ih ht
      exact ⟨i + 1, by simpa using hi⟩
    | some u =>
      simp only [slotTrees, optTrees, List.singleton_append, List.mem_cons] at ht
      rcases ht with rfl | ht
      · exact ⟨0, by simp⟩
      · obtain ⟨i, hi⟩ := ih ht
        exact ⟨i + 1, by simpa using hi⟩

theorem SlotInv_wf_mem {a : List (Option InternalTree)} (hinv : SlotInv a)
    {t : InternalTree} (ht : t ∈ slotTrees a) : t.wfTreeB = true := by
  obtain ⟨i, hi⟩ := slotTrees_mem ht
  exact (hinv i t hi).1

theorem InternalTree.wfTreeB_intact {t : InternalTree} (h : t.wfTreeB = true) :
    t.intactB = true := by
  simp only [InternalTree.wfTreeB, Bool.and_eq_true] at h
  exact h.1.1

theorem FibonacciHeap.trees_some {h : FibonacciHeap} {m : InternalTree}
    (hm : h.min_pointer = some m) : h.trees = m :: h.children_list := by
  simp [FibonacciHeap.trees, hm]

theorem FibonacciHeap.trees_none {h : FibonacciHeap}
    (hm : h.min_pointer = none) : h.trees = h.children_list := by
  simp [FibonacciHeap.trees, hm]

theorem consolidate_array_size_gt_log (n : Nat) (hn : 1 ≤ n) :
    Nat.log 2 n < consolidate_array_size n := by
  unfold consolidate_array_size
  have hm : Nat.log 2 n ≤ n := Nat.log_le_self 2 n
  have hP : 161803 ^ Nat.log 2 n ≤ n * 100000 ^ Nat.log 2 n := by
    have h2 : 2 ^ Nat.log 2 n ≤ n := Nat.pow_log_le_self 2 (by omega)
    calc 161803 ^ Nat.log 2 n ≤ 200000 ^ Nat.log 2 n :=
          Nat.pow_le_pow_left (by norm_num) _
      _ = 2 ^ Nat.log 2 n * 100000 ^ Nat.log 2 n := by
          rw [← Nat.mul_pow]
      _ ≤ n * 100000 ^ Nat.log 2 n :=
          Nat.mul_le_mul_right _ h2
  have := @Nat.le_findGreatest (Nat.log 2 n)
    (fun k => 161803 ^ k ≤ n * 100000 ^ k) inferInstance n hm hP
  omega

theorem FibonacciHeap.wfB_parts {h : FibonacciHeap} (hw : h.wfB = true) :
    (∀ t ∈ h.trees, t.wfTreeB = true) ∧
      h.size = InternalTree.countList h.trees := by
  unfold FibonacciHeap.wfB at hw
  cases hm : h.min_pointer with
  | none =>
    rw [hm] at hw
    simp only [Bool.and_eq_true, List.all_eq_true, beq_iff_eq] at hw
    exact ⟨hw.1.1, hw.1.2⟩
  | some m =>
    rw [hm] at hw
    simp only [Bool.and_eq_true, List.all_eq_true, beq_iff_eq] at hw
    exact ⟨hw.1.1, hw.1.2⟩

theorem FibonacciHeap.wfB_min_le {h : FibonacciHeap} (hw : h.wfB = true)
    {m : InternalTree} (hm : h.min_pointer = some m) :
    ∀ t ∈ h.children_list, payLeB m.peek_payload t.peek_payload = true := by
  unfold FibonacciHeap.wfB at hw
  rw [hm] at hw
  simp only [Bool.and_eq_true, List.all_eq_true, beq_iff_eq] at hw
  exact hw.2

theorem FibonacciHeap.wfB_empty {h : FibonacciHeap} (hw : h.wfB = true)
    (hm : h.min_pointer = none) : h.children_list = [] ∧ h.size = 0 := by
  unfold FibonacciHeap.wfB at hw
  rw [hm] at hw
  simp only [Bool.and_eq_true, List.all_eq_true, beq_iff_eq,
    List.isEmpty_iff] at hw
  exact hw.2

theorem FibonacciHeap.wfB_intro {h : FibonacciHeap}
    (h1 : ∀ t ∈ h.trees, t.wfTreeB = true)
    (h2 : h.size = InternalTree.countList h.trees)
    (h3 : match h.min_pointer with
      | none => h.children_list = [] ∧ h.size = 0
      | some m => ∀ t ∈ h.children_list,
          payLeB m.peek_payload t.peek_payload = true) :
    h.wfB = true := by
  unfold FibonacciHeap.wfB
  cases hm : h.min_pointer with
  | none =>
    rw [hm] at h3
    simp only [Bool.and_eq_true, List.all_eq_true, beq_iff_eq,
      List.isEmpty_iff]
    exact ⟨⟨h1, h2⟩, h3⟩
  | some m =>
    rw [hm] at h3
    simp only [Bool.and_eq_true, List.all_eq_true, beq_iff_eq]
    exact ⟨⟨h1, h2⟩, h3⟩

theorem FibonacciHeap.consolidate_ok (hh : FibonacciHeap) (m : InternalTree)
    (hmin : hh.min_pointer = some m)
    (hwf : ∀ t ∈ hh.trees, t.wfTreeB = true)
    (hsz : hh.size = InternalTree.countList hh.trees)
    (hpos : 1 ≤ hh.size) :
    ∃ h', hh.consolidate = some h' ∧ h'.wfB = true ∧ h'.size = hh.size ∧
      (FibonacciHeap.elems h').Perm (FibonacciHeap.elems hh) := by
  have htrees := FibonacciHeap.trees_some hmin
  have hwf' : ∀ t ∈ (m :: hh.children_list), t.wfTreeB = true := by
    rw [← htrees]; exact hwf
  have hrep : SlotInv (List.replicate (consolidate_array_size hh.size) none) :=
    SlotInv_replicate _
  have hlen : Nat.log 2 hh.size <
      (List.replicate (consolidate_array_size hh.size)
        (none : Option InternalTree)).length := by
    rw [List.length_replicate]
    exact consolidate_array_size_gt_log hh.size hpos
  have hcntm : InternalTree.countList (m :: hh.children_list) = hh.size := by
    rw [← htrees, ← hsz]
  have h0 : InternalTree.countList
      (slotTrees (List.replicate (consolidate_array_size hh.size) none)) = 0 := by
    rw [slotTrees_replicate]; rfl
  have hcnt0 : InternalTree.countList
        (slotTrees (List.replicate (consolidate_array_size hh.size) none)) +
      InternalTree.countList (m :: hh.children_list) ≤ hh.size := by
    omega
  obtain ⟨a', heqd, hinv', hlen', hcnt', helems'⟩ :=
    FibonacciHeap.drainRoots_ok hh.size (m :: hh.children_list) _ hrep hwf'
      hcnt0 hlen
  have hsl_int : ∀ t ∈ slotTrees a', t.intactB = true :=
    fun t ht => InternalTree.wfTreeB_intact (SlotInv_wf_mem hinv' ht)
  obtain ⟨minP', roots', heqs, hnone', hminle⟩ :=
    FibonacciHeap.sweep_ok a' none [] hsl_int (by simp) (by simp) (by simp)
  have hperm := FibonacciHeap.sweep_perm a' none [] minP' roots' heqs
  have hcount_a' : InternalTree.countList (slotTrees a') = hh.size := by
    rw [hcnt', h0, hcntm]
    omega
  cases minP' with
  | none =>
    exfalso
    obtain ⟨_, _, hempty⟩ := hnone' rfl
    rw [hempty] at hcount_a'
    simp only [InternalTree.countList] at hcount_a'
    omega
  | some m' =>
    simp only [optTrees, List.append_nil, List.singleton_append] at hperm
    have heq : hh.consolidate =
        some { children_list := roots', size := hh.size,
               min_pointer := some m' } := by
      have hne : ¬ (hh.size = 0) := by omega
      unfold FibonacciHeap.consolidate
      simp only [hne, if_false, hmin]
      rw [heqd]
      show (match FibonacciHeap.sweep a' none [] with
        | none => none
        | some (minP, roots) =>
          some (FibonacciHeap.mk roots hh.size minP)) =
        some (FibonacciHeap.mk roots' hh.size (some m'))
      rw [heqs]
    refine ⟨_, heq, ?_, rfl, ?_⟩
    · apply FibonacciHeap.wfB_intro
      · intro t ht
        have ht' : t ∈ m' :: roots' := ht
        have : t ∈ slotTrees a' := (hperm.mem_iff).mp ht'
        exact SlotInv_wf_mem hinv' this
      · show hh.size = InternalTree.countList (m' :: roots')
        rw [InternalTree.countList_perm hperm, hcount_a']
      · exact hminle m' rfl
    · show (InternalTree.elemsList (m' :: roots')).Perm (FibonacciHeap.elems hh)
      have e1 : (InternalTree.elemsList (m' :: roots')).Perm
          (InternalTree.elemsList (slotTrees a')) :=
        InternalTree.elemsList_perm hperm
      refine e1.trans (helems'.trans ?_)
      rw [slotTrees_replicate]
      show (InternalTree.elemsList (m :: hh.children_list) ++
        InternalTree.elemsList []).Perm (FibonacciHeap.elems hh)
      simp only [InternalTree.elemsList, List.append_nil]
      unfold FibonacciHeap.elems
      rw [htrees]
      simp [InternalTree.elemsList]

theorem InternalTree.wf_children {t : InternalTree} (h : t.wfTreeB = true) :
    ∀ c ∈ t.children_list, c.wfTreeB = true := by
  cases t with
  | node d p cs =>
    simp only [InternalTree.wfTreeB, Bool.and_eq_true, InternalTree.intactB,
      InternalTree.hordB, InternalTree.binB] at h
    obtain ⟨⟨⟨_, hint⟩, hord⟩, _, hbin⟩ := h
    intro c hc
    simp only [InternalTree.children_list_node] at hc
    have h1 := InternalTree.intactListB_mem hint c hc
    have h2 := (InternalTree.hordChildren_mem hord c hc).2
    have h3 := InternalTree.binSeq_mem hbin c hc
    simp [InternalTree.wfTreeB, h1, h2, h3]

theorem InternalTree.countList_eq_zero {ts : List InternalTree}
    (h : InternalTree.countList ts = 0) : ts = [] := by
  cases ts with
  | nil => rfl
  | cons t rest =>
    exfalso
    have := InternalTree.count_pos t
    simp only [InternalTree.countList] at h
    omega

theorem InternalTree.elems_eq {t : InternalTree} {p : Int}
    (hp : t.peek_payload = some p) :
    t.elems = p :: InternalTree.elemsList t.children_list := by
  cases t with
  | node d p0 cs =>
    simp only [InternalTree.peek_payload_node] at hp
    subst hp
    simp [InternalTree.elems]

theorem InternalTree.wfTreeB_init (v : Int) :
    (InternalTree.init v).wfTreeB = true := rfl

theorem InternalTree.count_init (v : Int) : (InternalTree.init v).count = 1 := rfl

theorem InternalTree.elems_init (v : Int) : (InternalTree.init v).elems = [v] := rfl

@[simp] theorem FibonacciHeap.children_list_mk (cl : List InternalTree)
    (sz : Nat) (mp : Option InternalTree) :
    (FibonacciHeap.mk cl sz mp).children_list = cl := rfl

@[simp] theorem FibonacciHeap.size_mk (cl : List InternalTree) (sz : Nat)
    (mp : Option InternalTree) : (FibonacciHeap.mk cl sz mp).size = sz := rfl

@[simp] theorem FibonacciHeap.min_pointer_mk (cl : List InternalTree) (sz : Nat)
    (mp : Option InternalTree) :
    (FibonacciHeap.mk cl sz mp).min_pointer = mp := rfl

theorem FibonacciHeap.trees_mk_some (cl : List InternalTree) (sz : Nat)
    (m : InternalTree) :
    (FibonacciHeap.mk cl sz (some m)).trees = m :: cl := rfl

theorem FibonacciHeap.trees_mk_none (cl : List InternalTree) (sz : Nat) :
    (FibonacciHeap.mk cl sz none).trees = cl := rfl

theorem FibonacciHeap.elems_mk_some (cl : List InternalTree) (sz : Nat)
    (m : InternalTree) :
    FibonacciHeap.elems (FibonacciHeap.mk cl sz (some m)) =
      m.elems ++ InternalTree.elemsList cl := by
  unfold FibonacciHeap.elems
  rw [FibonacciHeap.trees_mk_some]
  simp [InternalTree.elemsList]

theorem FibonacciHeap.push_ok (h : FibonacciHeap) (v : Int) (hw : h.wfB = true) :
    ∃ h', h.push v = some h' ∧ h'.wfB = true ∧ h'.size = h.size + 1 ∧
      (FibonacciHeap.elems h').Perm (v :: FibonacciHeap.elems h) := by
  obtain ⟨hwf, hsz⟩ := FibonacciHeap.wfB_parts hw
  cases hmp : h.min_pointer with
  | none =>
    obtain ⟨hch, hs0⟩ := FibonacciHeap.wfB_empty hw hmp
    refine ⟨⟨h.children_list, h.size + 1, some (InternalTree.init v)⟩, ?_, ?_, rfl, ?_⟩
    · simp [FibonacciHeap.push, hmp]
    · apply FibonacciHeap.wfB_intro
      · intro t ht
        rw [FibonacciHeap.trees_mk_some, hch] at ht
        simp only [List.mem_singleton] at ht
        subst ht
        exact InternalTree.wfTreeB_init v
      · rw [FibonacciHeap.trees_mk_some, FibonacciHeap.size_mk, hch]
        simp [InternalTree.countList, InternalTree.count_init, hs0]
      · rw [FibonacciHeap.min_pointer_mk, FibonacciHeap.children_list_mk, hch]
        simp
    · rw [FibonacciHeap.elems_mk_some]
      unfold FibonacciHeap.elems
      rw [FibonacciHeap.trees_none hmp, hch]
      simp [InternalTree.elemsList, InternalTree.elems_init]
  | some m =>
    have hmwf : m.wfTreeB = true := by
      apply hwf
      rw [FibonacciHeap.trees_some hmp]
      exact List.mem_cons_self m h.children_list
    obtain ⟨pm, hpm⟩ := InternalTree.intact_payload (InternalTree.wfTreeB_intact hmwf)
    have hle := FibonacciHeap.wfB_min_le hw hmp
    have hszm : h.size = m.count + InternalTree.countList h.children_list := by
      rw [hsz, FibonacciHeap.trees_some hmp]
      simp [InternalTree.countList]
    have hmemch : ∀ t ∈ h.children_list, t.wfTreeB = true := by
      intro t ht
      apply hwf
      rw [FibonacciHeap.trees_some hmp]
      exact List.mem_cons_of_mem m ht
    have hvpay : (InternalTree.init v).peek_payload = some v := rfl
    by_cases hvle : v ≤ pm
    · refine ⟨⟨h.children_list ++ [m], h.size + 1, some (InternalTree.init v)⟩,
        ?_, ?_, rfl, ?_⟩
      · simp [FibonacciHeap.push, hmp, InternalTree.is_smaller_or_equal,
          InternalTree.init, hpm, hvle]
      · apply FibonacciHeap.wfB_intro
        · intro t ht
          rw [FibonacciHeap.trees_mk_some] at ht
          rcases List.mem_cons.mp ht with rfl | ht
          · exact InternalTree.wfTreeB_init v
          · rcases List.mem_append.mp ht with ht | ht
            · exact hmemch t ht
            · simp only [List.mem_singleton] at ht
              subst ht
              exact hmwf
        · rw [FibonacciHeap.trees_mk_some, FibonacciHeap.size_mk]
          simp only [InternalTree.countList, InternalTree.count_init,
            InternalTree.countList_append]
          omega
        · rw [FibonacciHeap.min_pointer_mk, FibonacciHeap.children_list_mk]
          intro t ht
          rw [hvpay]
          rcases List.mem_append.mp ht with ht | ht
          · have := hle t ht
            rw [hpm] at this
            exact payLeB_trans (by simp [payLeB, hvle]) this
          · simp only [List.mem_singleton] at ht
            subst ht
            rw [hpm]
            simp [payLeB, hvle]
      · rw [FibonacciHeap.elems_mk_some]
        unfold FibonacciHeap.elems
        rw [FibonacciHeap.trees_some hmp]
        simp only [InternalTree.elemsList, InternalTree.elems_init,
          InternalTree.elemsList_append]
        rw [← Multiset.coe_eq_coe]
        simp only [← Multiset.cons_coe, ← Multiset.coe_add,
          Multiset.coe_singleton, Multiset.coe_nil]
        rw [← Multiset.singleton_add, ← Multiset.singleton_add]
        abel
    · refine ⟨⟨h.children_list ++ [InternalTree.init v], h.size + 1, some m⟩,
        ?_, ?_, rfl, ?_⟩
      · simp [FibonacciHeap.push, hmp, InternalTree.is_smaller_or_equal,
          InternalTree.init, hpm, hvle]
      · apply FibonacciHeap.wfB_intro
        · intro t ht
          rw [FibonacciHeap.trees_mk_some] at ht
          rcases List.mem_cons.mp ht with rfl | ht
          · exact hmwf
          · rcases List.mem_append.mp ht with ht | ht
            · exact hmemch t ht
            · simp only [List.mem_singleton] at ht
              subst ht
              exact InternalTree.wfTreeB_init v
        · rw [FibonacciHeap.trees_mk_some, FibonacciHeap.size_mk]
          simp only [InternalTree.countList, InternalTree.count_init,
            InternalTree.countList_append]
          omega
        · rw [FibonacciHeap.min_pointer_mk, FibonacciHeap.children_list_mk]
          intro t ht
          rcases List.mem_append.mp ht with ht | ht
          · exact hle t ht
          · simp only [List.mem_singleton] at ht
            subst ht
            rw [hvpay, hpm]
            simp only [payLeB, decide_eq_true_eq]
            omega
      · rw [FibonacciHeap.elems_mk_some]
        unfold FibonacciHeap.elems
        rw [FibonacciHeap.trees_some hmp]
        simp only [InternalTree.elemsList, InternalTree.elems_init,
          InternalTree.elemsList_append]
        rw [← Multiset.coe_eq_coe]
        simp only [← Multiset.cons_coe, ← Multiset.coe_add,
          Multiset.coe_singleton, Multiset.coe_nil]
        rw [← Multiset.singleton_add, ← Multiset.singleton_add]
        abel

theorem InternalTree.wfTreeB_hord {t : InternalTree} (h : t.wfTreeB = true) :
    t.hordB = true := by
  simp only [InternalTree.wfTreeB, Bool.and_eq_true] at h
  exact h.1.2

theorem InternalTree.count_eq (t : InternalTree) :
    t.count = 1 + InternalTree.countList t.children_list := by
  cases t with
  | node d p cs => rfl

theorem FibonacciHeap.pop_ok (h : FibonacciHeap) (hw : h.wfB = true)
    (hpos : 1 ≤ h.size) :
    ∃ p h', h.pop = some (some p, h') ∧ h'.wfB = true ∧
      h'.size + 1 = h.size ∧
      (FibonacciHeap.elems h).Perm (p :: FibonacciHeap.elems h') ∧
      (∀ q ∈ FibonacciHeap.elems h, p ≤ q) := by
  obtain ⟨hwf, hsz⟩ := FibonacciHeap.wfB_parts hw
  have hne : ¬ (h.size = 0) := by omega
  cases hmp : h.min_pointer with
  | none =>
    obtain ⟨_, hs0⟩ := FibonacciHeap.wfB_empty hw hmp
    omega
  | some m =>
    have hmwf : m.wfTreeB = true := by
      apply hwf
      rw [FibonacciHeap.trees_some hmp]
      exact List.mem_cons_self m h.children_list
    obtain ⟨pm, hpm⟩ := InternalTree.intact_payload (InternalTree.wfTreeB_intact hmwf)
    have hle := FibonacciHeap.wfB_min_le hw hmp
    have hmemch : ∀ t ∈ h.children_list, t.wfTreeB = true := by
      intro t ht
      apply hwf
      rw [FibonacciHeap.trees_some hmp]
      exact List.mem_cons_of_mem m ht
    have hmemmc : ∀ t ∈ m.children_list, t.wfTreeB = true :=
      InternalTree.wf_children hmwf
    have hszm : h.size = m.count + InternalTree.countList h.children_list := by
      rw [hsz, FibonacciHeap.trees_some hmp]
      simp [InternalTree.countList]
    have hmc := InternalTree.count_eq m
    have helh : FibonacciHeap.elems h =
        pm :: (InternalTree.elemsList m.children_list ++
          InternalTree.elemsList h.children_list) := by
      unfold FibonacciHeap.elems
      rw [FibonacciHeap.trees_some hmp]
      simp only [InternalTree.elemsList, List.append_nil]
      rw [InternalTree.elems_eq hpm]
      simp
    have hmin_all : ∀ q ∈ FibonacciHeap.elems h, pm ≤ q := by
      intro q hq
      rw [helh] at hq
      rcases List.mem_cons.mp hq with rfl | hq
      · omega
      rcases List.mem_append.mp hq with hq | hq
      · have := InternalTree.hord_all_ge m pm (InternalTree.wfTreeB_intact hmwf)
          (InternalTree.wfTreeB_hord hmwf) hpm q
        apply this
        rw [InternalTree.elems_eq hpm]
        exact List.mem_cons_of_mem pm hq
      · obtain ⟨t, ht, hqt⟩ := InternalTree.mem_elemsList.mp hq
        have htw := hmemch t ht
        obtain ⟨pt, hpt⟩ := InternalTree.intact_payload (InternalTree.wfTreeB_intact htw)
        have h1 := hle t ht
        rw [hpm, hpt] at h1
        simp only [payLeB, decide_eq_true_eq] at h1
        have h2 := InternalTree.hord_all_ge t pt (InternalTree.wfTreeB_intact htw)
          (InternalTree.wfTreeB_hord htw) hpt q hqt
        omega
    have hcroots : InternalTree.countList
        (h.children_list ++ m.children_list) + 1 = h.size := by
      rw [InternalTree.countList_append]
      omega
    by_cases hone : h.size - 1 = 0
    · have hch0 : h.children_list = [] := by
        apply InternalTree.countList_eq_zero
        rw [InternalTree.countList_append] at hcroots
        omega
      have hmch0 : m.children_list = [] := by
        apply InternalTree.countList_eq_zero
        rw [InternalTree.countList_append] at hcroots
        omega
      refine ⟨pm, ⟨h.children_list ++ m.children_list, 0, none⟩, ?_, ?_, ?_, ?_, hmin_all⟩
      · simp only [FibonacciHeap.pop, hmp, hpm, hne, if_false, hone, if_true]
      · apply FibonacciHeap.wfB_intro
        · intro t ht
          rw [FibonacciHeap.trees_mk_none, hch0, hmch0] at ht
          simp at ht
        · rw [FibonacciHeap.trees_mk_none, FibonacciHeap.size_mk, hch0, hmch0]
          rfl
        · rw [FibonacciHeap.min_pointer_mk]
          rw [FibonacciHeap.children_list_mk, hch0, hmch0]
          exact ⟨rfl, rfl⟩
      · simp only [FibonacciHeap.size_mk]
        omega
      · rw [helh]
        unfold FibonacciHeap.elems
        rw [FibonacciHeap.trees_mk_none, hch0, hmch0]
        simp [InternalTree.elemsList]
    · cases hr : h.children_list ++ m.children_list with
      | nil =>
        exfalso
        rw [hr] at hcroots
        simp only [InternalTree.countList] at hcroots
        omega
      | cons r rs =>
        have hwfroots : ∀ t ∈ r :: rs, t.wfTreeB = true := by
          rw [← hr]
          intro t ht
          rcases List.mem_append.mp ht with ht | ht
          · exact hmemch t ht
          · exact hmemmc t ht
        have hhsz : h.size - 1 = InternalTree.countList
            (FibonacciHeap.trees ⟨rs, h.size - 1, some r⟩) := by
          rw [FibonacciHeap.trees_mk_some, ← hr]
          omega
        obtain ⟨h', heqc, hwf', hsz', helems'⟩ :=
          FibonacciHeap.consolidate_ok ⟨rs, h.size - 1, some r⟩ r rfl
            (by rw [FibonacciHeap.trees_mk_some]; exact hwfroots) hhsz
            (by simp only [FibonacciHeap.size_mk]; omega)
        refine ⟨pm, h', ?_, hwf', ?_, ?_, hmin_all⟩
        · simp only [FibonacciHeap.pop, hmp, hpm, hne, if_false, hone, hr]
          simp only [List.tail_cons, List.head?_cons]
          rw [heqc]
        · rw [hsz']
          simp only [FibonacciHeap.size_mk]
          omega
        · rw [helh]
          have he2 : FibonacciHeap.elems ⟨rs, h.size - 1, some r⟩ =
              InternalTree.elemsList (h.children_list ++ m.children_list) := by
            unfold FibonacciHeap.elems
            rw [FibonacciHeap.trees_mk_some, hr]
          rw [he2, InternalTree.elemsList_append] at helems'
          refine List.Perm.cons pm ?_
          refine List.Perm.trans ?_ helems'.symm
          exact List.perm_append_comm

theorem FibonacciHeap.wf_init : FibonacciHeap.init.wfB = true := rfl

theorem FibonacciHeap.elems_init_eq : FibonacciHeap.elems FibonacciHeap.init = [] := rfl

theorem FibonacciHeap.pop_size_zero (h : FibonacciHeap) (hs : h.size = 0) :
    h.pop = some (none, h) := by
  simp [FibonacciHeap.pop, hs]

theorem FibonacciHeap.elems_of_empty {h : FibonacciHeap} (hw : h.wfB = true)
    (h0 : h.size = 0) : FibonacciHeap.elems h = [] := by
  cases hm : h.min_pointer with
  | some m =>
    exfalso
    obtain ⟨_, hsz⟩ := FibonacciHeap.wfB_parts hw
    rw [FibonacciHeap.trees_some hm] at hsz
    simp only [InternalTree.countList] at hsz
    have := InternalTree.count_pos m
    omega
  | none =>
    obtain ⟨hch, _⟩ := FibonacciHeap.wfB_empty hw hm
    unfold FibonacciHeap.elems
    rw [FibonacciHeap.trees_none hm, hch]
    rfl

theorem FibonacciHeap.pushList_ok (xs : List Int) :
    ∀ h : FibonacciHeap, h.wfB = true →
    ∃ h', h.pushList xs = some h' ∧ h'.wfB = true ∧
      h'.size = h.size + xs.length ∧
      (FibonacciHeap.elems h').Perm (xs ++ FibonacciHeap.elems h) := by
  induction xs with
  | nil =>
    intro h hw
    exact ⟨h, rfl, hw, by simp, by simp⟩
  | cons v vs ih =>
    intro h hw
    obtain ⟨h1, he1, hw1, hs1, hp1⟩ := FibonacciHeap.push_ok h v hw
    obtain ⟨h', he2, hw2, hs2, hp2⟩ := ih h1 hw1
    refine ⟨h', ?_, hw2, by simp only [List.length_cons]; omega, ?_⟩
    · simp [FibonacciHeap.pushList, he1, he2]
    · refine hp2.trans ?_
      refine (List.Perm.append_left vs hp1).trans ?_
      exact List.perm_middle

theorem FibonacciHeap.popN_sorted :
    ∀ (k : Nat) (h : FibonacciHeap), h.wfB = true → h.size = k →
    ∃ (zs : List Int) (hf : FibonacciHeap),
      FibonacciHeap.popN k h = some (zs.map some, hf) ∧
      List.Sorted (· ≤ ·) zs ∧ zs.Perm (FibonacciHeap.elems h) ∧
      hf.wfB = true ∧ hf.size = 0 := by
  intro k
  induction k with
  | zero =>
    intro h hw h0
    refine ⟨[], h, rfl, by simp, ?_, hw, h0⟩
    rw [FibonacciHeap.elems_of_empty hw h0]
  | succ k ih =>
    intro h hw hk
    obtain ⟨p, h1, hpop, hw1, hs1, hperm, hmin⟩ :=
      FibonacciHeap.pop_ok h hw (by omega)
    obtain ⟨zs, hf, heq, hsort, hzperm, hwf, hf0⟩ := ih h1 hw1 (by omega)
    refine ⟨p :: zs, hf, ?_, ?_, ?_, hwf, hf0⟩
    · simp [FibonacciHeap.popN, hpop, heq]
    · rw [List.sorted_cons]
      refine ⟨?_, hsort⟩
      intro b hb
      have hb1 : b ∈ FibonacciHeap.elems h1 := hzperm.mem_iff.mp hb
      have hb2 : b ∈ FibonacciHeap.elems h := by
        rw [hperm.mem_iff]
        exact List.mem_cons_of_mem p hb1
      exact hmin b hb2
    · exact (hzperm.cons p).trans hperm.symm

/-! ## Claim theorems -/

/-- C1: for every finite sequence of n values inserted via `push` into a
heap created by `init`, repeatedly calling `pop` yields the inserted
values in non-decreasing order; exactly n pops return a value and the
(n+1)-th returns nothing. -/
theorem C1_sorted_extraction (xs : List Int) :
    ∃ (h : FibonacciHeap) (zs : List Int) (hf : FibonacciHeap),
      FibonacciHeap.init.pushList xs = some h ∧
      FibonacciHeap.popN xs.length h = some (zs.map some, hf) ∧
      zs.Perm xs ∧ List.Sorted (· ≤ ·) zs ∧
      hf.pop = some (none, hf) := by
  obtain ⟨h, he, hw, hs, hp⟩ :=
    FibonacciHeap.pushList_ok xs FibonacciHeap.init FibonacciHeap.wf_init
  rw [FibonacciHeap.elems_init_eq, List.append_nil] at hp
  obtain ⟨zs, hf, heq, hsort, hperm, hwf, hf0⟩ :=
    FibonacciHeap.popN_sorted xs.length h hw
      (by simpa [FibonacciHeap.init] using hs)
  exact ⟨h, zs, hf, he, heq, hperm.trans hp, hsort,
    FibonacciHeap.pop_size_zero hf hf0⟩

/-- C2 (counterexample evaluation): merging `{0}` with the heap obtained
by `push 1; push 2; push 3; pop` (whose min tree holds 2 with child 3)
yields a heap whose `size` field is 3 but which holds only the two
payloads 0 and 2 — the subtree of the second operand's min is dropped. -/
theorem C2_merge_loses_elements :
    FibonacciHeap.init.pushList [1, 2, 3] =
      some ⟨[InternalTree.node 0 (some 2) [], InternalTree.node 0 (some 3) []],
        3, some (InternalTree.node 0 (some 1) [])⟩ ∧
    (FibonacciHeap.mk
        [InternalTree.node 0 (some 2) [], InternalTree.node 0 (some 3) []]
        3 (some (InternalTree.node 0 (some 1) []))).pop =
      some (some 1, ⟨[], 2, some (InternalTree.node 1 (some 2)
        [InternalTree.node 0 (some 3) []])⟩) ∧
    FibonacciHeap.init.pushList [0] =
      some ⟨[], 1, some (InternalTree.node 0 (some 0) [])⟩ ∧
    FibonacciHeap.merge ⟨[], 1, some (InternalTree.node 0 (some 0) [])⟩
        ⟨[], 2, some (InternalTree.node 1 (some 2)
          [InternalTree.node 0 (some 3) []])⟩ =
      some ⟨[InternalTree.node 0 (some 2) []], 3,
        some (InternalTree.node 0 (some 0) [])⟩ ∧
    (FibonacciHeap.mk [InternalTree.node 0 (some 2) []] 3
        (some (InternalTree.node 0 (some 0) []))).size = 3 ∧
    FibonacciHeap.elems ⟨[InternalTree.node 0 (some 2) []], 3,
        (some (InternalTree.node 0 (some 0) []))⟩ = [0, 2] := by
  refine ⟨rfl, ?_, rfl, rfl, rfl, rfl⟩
  simp [FibonacciHeap.pop, FibonacciHeap.consolidate, consolidate_array_size,
    FibonacciHeap.drainRoots, FibonacciHeap.placeTree, FibonacciHeap.sweep,
    InternalTree.is_smaller_or_equal, InternalTree.merge, InternalTree.add_child,
    InternalTree.init, InternalTree.degree, InternalTree.peek_payload,
    Nat.findGreatest, List.replicate]

/-- C3 (counterexample evaluation): `merge` panics (modelled `none`) when
either operand is empty, in both argument orders and with both empty,
instead of returning the non-empty operand unchanged. -/
theorem C3_merge_empty_panics :
    FibonacciHeap.merge FibonacciHeap.init
      ⟨[], 1, some (InternalTree.init 0)⟩ = none ∧
    FibonacciHeap.merge ⟨[], 1, some (InternalTree.init 0)⟩
      FibonacciHeap.init = none ∧
    FibonacciHeap.merge FibonacciHeap.init FibonacciHeap.init = none :=
  ⟨rfl, rfl, rfl⟩

/-- C4: for non-empty heaps, the merged heap's `size` is the sum of the
operand sizes and its min pointer holds the smaller of the two minima. -/
theorem C4_merge_size_min (h1 h2 : FibonacciHeap) (m1 m2 : InternalTree)
    (p1 p2 : Int)
    (hm1 : h1.min_pointer = some m1) (hp1 : m1.peek_payload = some p1)
    (hm2 : h2.min_pointer = some m2) (hp2 : m2.peek_payload = some p2)
    (hs2 : 1 ≤ h2.size) :
    ∃ (hm : FibonacciHeap) (m : InternalTree),
      FibonacciHeap.merge h1 h2 = some hm ∧
      hm.size = h1.size + h2.size ∧
      hm.min_pointer = some m ∧ m.peek_payload = some (min p1 p2) := by
  by_cases hle : p2 ≤ p1
  · refine ⟨⟨(h1.children_list ++ h2.children_list) ++ [m1],
      h1.size + h2.size, some m2⟩, m2, ?_, rfl, rfl, ?_⟩
    · simp [FibonacciHeap.merge, hm2, hm1, InternalTree.is_smaller_or_equal,
        hp1, hp2, hle]
    · rw [hp2, min_eq_right hle]
  · refine ⟨⟨(h1.children_list ++ h2.children_list) ++ [InternalTree.init p2],
      (h1.size + 1) + (h2.size - 1), some m1⟩, m1, ?_, ?_, rfl, ?_⟩
    · simp [FibonacciHeap.merge, hm2, hm1, InternalTree.is_smaller_or_equal,
        hp1, hp2, hle, FibonacciHeap.push, InternalTree.init]
    · simp only [FibonacciHeap.size_mk]
      omega
    · rw [hp1, min_eq_left (le_of_lt (not_le.mp hle))]

/-- Witness for C4 at two concrete singleton heaps. -/
theorem C4_witness :
    (1 : Nat) ≤ 1 ∧
    ∃ (hm : FibonacciHeap) (m : InternalTree),
      FibonacciHeap.merge ⟨[], 1, some (InternalTree.init 0)⟩
        ⟨[], 1, some (InternalTree.init 1)⟩ = some hm ∧
      hm.size = 1 + 1 ∧
      hm.min_pointer = some m ∧ m.peek_payload = some (min 0 1) :=
  ⟨le_refl 1, C4_merge_size_min ⟨[], 1, some (InternalTree.init 0)⟩
    ⟨[], 1, some (InternalTree.init 1)⟩ (InternalTree.init 0)
    (InternalTree.init 1) 0 1 rfl rfl rfl rfl (le_refl 1)⟩

/-- C7: the concrete scenario `push 2; push 3; push 0; push 1` followed by
four pops returns 0, 1, 2, 3 with the specified sizes and `preorder`
strings, and a further pop returns nothing. -/
theorem C7_concrete_scenario :
    FibonacciHeap.init.pushList [2, 3, 0, 1] =
      some ⟨[InternalTree.node 0 (some 3) [], InternalTree.node 0 (some 2) [],
        InternalTree.node 0 (some 1) []], 4,
        some (InternalTree.node 0 (some 0) [])⟩ ∧
    (FibonacciHeap.mk [InternalTree.node 0 (some 3) [],
        InternalTree.node 0 (some 2) [], InternalTree.node 0 (some 1) []] 4
        (some (InternalTree.node 0 (some 0) []))).pop =
      some (some 0, ⟨[InternalTree.node 1 (some 2) [InternalTree.node 0 (some 3) []]],
        3, some (InternalTree.node 0 (some 1) [])⟩) ∧
    (FibonacciHeap.mk [InternalTree.node 1 (some 2) [InternalTree.node 0 (some 3) []]]
        3 (some (InternalTree.node 0 (some 1) []))).size = 3 ∧
    FibonacciHeap.preorder ⟨[InternalTree.node 1 (some 2) [InternalTree.node 0 (some 3) []]],
        3, some (InternalTree.node 0 (some 1) [])⟩ = "Min: 1\nTree 1: 2 3\n" ∧
    (FibonacciHeap.mk [InternalTree.node 1 (some 2) [InternalTree.node 0 (some 3) []]]
        3 (some (InternalTree.node 0 (some 1) []))).pop =
      some (some 1, ⟨[], 2,
        some (InternalTree.node 1 (some 2) [InternalTree.node 0 (some 3) []])⟩) ∧
    (FibonacciHeap.mk [] 2
        (some (InternalTree.node 1 (some 2) [InternalTree.node 0 (some 3) []]))).size = 2 ∧
    FibonacciHeap.preorder ⟨[], 2,
        some (InternalTree.node 1 (some 2) [InternalTree.node 0 (some 3) []])⟩ =
      "Min: 2 3\n" ∧
    (FibonacciHeap.mk [] 2
        (some (InternalTree.node 1 (some 2) [InternalTree.node 0 (some 3) []]))).pop =
      some (some 2, ⟨[], 1, some (InternalTree.node 0 (some 3) [])⟩) ∧
    (FibonacciHeap.mk [] 1 (some (InternalTree.node 0 (some 3) []))).pop =
      some (some 3, ⟨[], 0, none⟩) ∧
    (FibonacciHeap.mk [] 0 none).size = 0 ∧
    FibonacciHeap.preorder ⟨[], 0, none⟩ = "" ∧
    (FibonacciHeap.mk [] 0 none).pop = some (none, ⟨[], 0, none⟩) := by
  refine ⟨rfl, ?_, rfl, ?_, ?_, rfl, ?_, ?_, ?_, rfl, ?_, ?_⟩ <;>
    first
    | decide
    | simp [FibonacciHeap.pop, FibonacciHeap.consolidate, consolidate_array_size,
        FibonacciHeap.drainRoots, FibonacciHeap.placeTree, FibonacciHeap.sweep,
        InternalTree.is_smaller_or_equal, InternalTree.merge,
        InternalTree.add_child, InternalTree.init, InternalTree.degree,
        InternalTree.peek_payload, Nat.findGreatest, List.replicate]

/-- C8: `InternalTree.merge` on intact nodes returns the first node with
the second appended to its children (degree incremented) when the first
payload is `≤` the second, and symmetrically otherwise; on equal
payloads the first argument survives as the parent. -/
theorem C8_node_merge (a b : InternalTree) (pa pb : Int)
    (ha : a.peek_payload = some pa) (hb : b.peek_payload = some pb) :
    (pa ≤ pb → InternalTree.merge a b =
      some (InternalTree.node (a.degree + 1) (some pa)
        (a.children_list ++ [b]))) ∧
    (¬ pa ≤ pb → InternalTree.merge a b =
      some (InternalTree.node (b.degree + 1) (some pb)
        (b.children_list ++ [a]))) ∧
    (pa = pb → InternalTree.merge a b =
      some (InternalTree.node (a.degree + 1) (some pa)
        (a.children_list ++ [b]))) := by
  refine ⟨?_, ?_, ?_⟩ <;> intro hcmp
  · simp [InternalTree.merge, InternalTree.is_smaller_or_equal, ha, hb, hcmp,
      InternalTree.add_child]
  · simp [InternalTree.merge, InternalTree.is_smaller_or_equal, ha, hb, hcmp,
      InternalTree.add_child]
  · subst hcmp
    simp [InternalTree.merge, InternalTree.is_smaller_or_equal, ha, hb,
      InternalTree.add_child]

/-- Witness for C8: merging two intact nodes with equal payloads keeps
the first as parent. -/
theorem C8_witness :
    InternalTree.merge (InternalTree.init 1) (InternalTree.init 1) =
      some (InternalTree.node ((InternalTree.init 1).degree + 1) (some 1)
        ((InternalTree.init 1).children_list ++ [InternalTree.init 1])) :=
  (C8_node_merge (InternalTree.init 1) (InternalTree.init 1) 1 1 rfl rfl).2.2 rfl

/-- C9: `pop` on a heap of size 0 returns nothing, never fails, and
returns the heap unchanged. -/
theorem C9_pop_empty (h : FibonacciHeap) (hs : h.size = 0) :
    h.pop = some (none, h) :=
  FibonacciHeap.pop_size_zero h hs

/-- Witness for C9 on the canonical empty heap (size 0, no min, no
roots). -/
theorem C9_witness :
    FibonacciHeap.init.pop = some (none, FibonacciHeap.init) :=
  C9_pop_empty FibonacciHeap.init rfl

/-- C10: `push` adds exactly one new degree-0 singleton node holding the
value and increments `size` by 1, leaving every existing tree unchanged;
the only structural change is that the old min tree is moved, whole, to
the back of the root list when the new value is `≤` the current minimum.
No consolidation occurs. -/
theorem C10_push_frame (h : FibonacciHeap) (v : Int) :
    (h.min_pointer = none →
      h.push v = some ⟨h.children_list, h.size + 1,
        some (InternalTree.node 0 (some v) [])⟩) ∧
    (∀ m p, h.min_pointer = some m → m.peek_payload = some p →
      h.push v = some (if v ≤ p
        then ⟨h.children_list ++ [m], h.size + 1,
          some (InternalTree.node 0 (some v) [])⟩
        else ⟨h.children_list ++ [InternalTree.node 0 (some v) []],
          h.size + 1, some m⟩)) := by
  constructor
  · intro hmp
    simp [FibonacciHeap.push, hmp, InternalTree.init]
  · intro m p hmp hp
    by_cases hle : v ≤ p
    · simp [FibonacciHeap.push, hmp, InternalTree.is_smaller_or_equal,
        InternalTree.init, hp, hle]
    · simp [FibonacciHeap.push, hmp, InternalTree.is_smaller_or_equal,
        InternalTree.init, hp, hle]

/-- Witness for C10: pushing 5 onto the singleton heap `{0}` appends a
new degree-0 node holding 5 to the root list. -/
theorem C10_witness :
    FibonacciHeap.push ⟨[], 1, some (InternalTree.init 0)⟩ 5 =
      some ⟨[InternalTree.node 0 (some 5) []], 2,
        some (InternalTree.init 0)⟩ := by
  have := (C10_push_frame ⟨[], 1, some (InternalTree.init 0)⟩ 5).2
    (InternalTree.init 0) 0 rfl rfl
  simpa using this

theorem InternalTree.tw_children {t : InternalTree} (h : t.twB = true) :
    ∀ c ∈ t.children_list, c.twB = true := by
  cases t with
  | node d p cs =>
    simp only [InternalTree.twB, Bool.and_eq_true, InternalTree.intactB,
      InternalTree.hordB] at h
    obtain ⟨⟨_, hint⟩, hord⟩ := h
    intro c hc
    simp only [InternalTree.children_list_node] at hc
    have h1 := InternalTree.intactListB_mem hint c hc
    have h2 := (InternalTree.hordChildren_mem hord c hc).2
    simp [InternalTree.twB, h1, h2]

theorem FibonacciHeap.placeTree_tw :
    ∀ (a : List (Option InternalTree)) (x : InternalTree) (d : Nat)
      (a' : List (Option InternalTree)),
    FibonacciHeap.placeTree a x d = some a' →
    (∀ t ∈ slotTrees a, t.twB = true) → x.twB = true →
    ∀ t ∈ slotTrees a', t.twB = true := by
  intro a x d
  induction a, x, d using FibonacciHeap.placeTree.induct with
  | case1 a x d hd hget =>
    intro a' heq hslots hx
    unfold FibonacciHeap.placeTree at heq
    rw [dif_pos hd, hget] at heq
    have ha' : a' = a.set d (some x) := (Option.some.inj heq).symm
    subst ha'
    intro t ht
    have hperm := slotTrees_perm_set_some hd hget x
    rcases List.mem_cons.mp (hperm.mem_iff.mp ht) with rfl | hmem
    · exact hx
    · exact hslots t hmem
  | case2 a x d hd y hget hmerge =>
    intro a' heq
    exfalso
    unfold FibonacciHeap.placeTree at heq
    rw [dif_pos hd, hget] at heq
    have heq2 : (match InternalTree.merge x y with
      | none => none
      | some x' => FibonacciHeap.placeTree (a.set d none) x' (d + 1)) =
        some a' := heq
    rw [hmerge] at heq2
    exact Option.noConfusion heq2
  | case3 a x d hd y hget x' hmerge ih =>
    intro a' heq hslots hx
    unfold FibonacciHeap.placeTree at heq
    rw [dif_pos hd, hget] at heq
    have heq2 : (match InternalTree.merge x y with
      | none => none
      | some z => FibonacciHeap.placeTree (a.set d none) z (d + 1)) =
        some a' := heq
    rw [hmerge] at heq2
    have hperm := slotTrees_perm_of_get_some hd hget
    have hy : y.twB = true := hslots y (hperm.mem_iff.mpr
      (List.mem_cons_self y (slotTrees (a.set d none))))
    have hx' : x'.twB = true := InternalTree.merge_tw hmerge hx hy
    refine ih a' heq2 ?_ hx'
    intro t ht
    exact hslots t (hperm.mem_iff.mpr
      (List.mem_cons_of_mem y ht))
  | case4 a x d hd =>
    intro a' heq
    exfalso
    unfold FibonacciHeap.placeTree at heq
    rw [dif_neg hd] at heq
    exact Option.noConfusion heq

theorem FibonacciHeap.drainRoots_tw :
    ∀ (a : List (Option InternalTree)) (ts : List InternalTree)
      (a' : List (Option InternalTree)),
    FibonacciHeap.drainRoots a ts = some a' →
    (∀ t ∈ slotTrees a, t.twB = true) → (∀ t ∈ ts, t.twB = true) →
    ∀ t ∈ slotTrees a', t.twB = true := by
  intro a ts
  induction a, ts using FibonacciHeap.drainRoots.induct with
  | case1 a =>
    intro a' heq hslots _
    have : a = a' := Option.some.inj heq
    subst this
    exact hslots
  | case2 a t ts hplace =>
    intro a' heq
    exfalso
    simp only [FibonacciHeap.drainRoots, hplace] at heq
    exact Option.noConfusion heq
  | case3 a t ts a1 hplace ih =>
    intro a' heq hslots hts
    simp only [FibonacciHeap.drainRoots, hplace] at heq
    have h1 : ∀ u ∈ slotTrees a1, u.twB = true :=
      FibonacciHeap.placeTree_tw a t t.degree a1 hplace hslots
        (hts t (List.mem_cons_self t ts))
    exact ih a' heq h1 (fun u hu => hts u (List.mem_cons_of_mem t hu))

theorem FibonacciHeap.consolidate_tw (hh h' : FibonacciHeap)
    (heq : hh.consolidate = some h')
    (htw : ∀ t ∈ hh.trees, t.twB = true) :
    ∀ t ∈ h'.trees, t.twB = true := by
  unfold FibonacciHeap.consolidate at heq
  by_cases h0 : hh.size = 0
  · rw [if_pos h0] at heq
    have : hh = h' := Option.some.inj heq
    subst this
    exact htw
  · rw [if_neg h0] at heq
    cases hmp : hh.min_pointer with
    | none =>
      simp only [hmp] at heq
      exact Option.noConfusion heq
    | some m =>
      simp only [hmp] at heq
      cases hdr : FibonacciHeap.drainRoots
          (List.replicate (consolidate_array_size hh.size) none)
          (m :: hh.children_list) with
      | none =>
        simp only [hdr] at heq
        exact Option.noConfusion heq
      | some a' =>
        simp only [hdr] at heq
        cases hsw : FibonacciHeap.sweep a' none [] with
        | none =>
          simp only [hsw] at heq
          exact Option.noConfusion heq
        | some pr =>
          obtain ⟨minP, roots⟩ := pr
          simp only [hsw] at heq
          have hh' : h' = ⟨roots, hh.size, minP⟩ := (Option.some.inj heq).symm
          subst hh'
          have hperm := FibonacciHeap.sweep_perm a' none [] minP roots hsw
          simp only [optTrees, List.append_nil] at hperm
          have hsl : ∀ t ∈ slotTrees a', t.twB = true := by
            apply FibonacciHeap.drainRoots_tw _ _ _ hdr
            · rw [slotTrees_replicate]
              simp
            · rw [← FibonacciHeap.trees_some hmp]
              exact htw
          intro t ht
          apply hsl
          rw [← hperm.mem_iff]
          cases minP with
          | none => exact ht
          | some mint => exact ht

theorem FibonacciHeap.push_tw (h : FibonacciHeap) (v : Int) (h' : FibonacciHeap)
    (heq : h.push v = some h')
    (htw : ∀ t ∈ h.trees, t.twB = true) :
    ∀ t ∈ h'.trees, t.twB = true := by
  have hinit : (InternalTree.init v).twB = true := rfl
  unfold FibonacciHeap.push at heq
  cases hmp : h.min_pointer with
  | none =>
    simp only [hmp] at heq
    have : h' = ⟨h.children_list, h.size + 1, some (InternalTree.init v)⟩ :=
      (Option.some.inj heq).symm
    subst this
    intro t ht
    rw [FibonacciHeap.trees_mk_some] at ht
    rcases List.mem_cons.mp ht with rfl | ht
    · exact hinit
    · exact htw t (by rw [FibonacciHeap.trees_none hmp]; exact ht)
  | some m =>
    simp only [hmp] at heq
    cases hcmp : InternalTree.is_smaller_or_equal (InternalTree.init v) m with
    | none =>
      simp only [hcmp] at heq
      exact Option.noConfusion heq
    | some b =>
      simp only [hcmp] at heq
      have hmtrees : ∀ t ∈ m :: h.children_list, t.twB = true := by
        rw [← FibonacciHeap.trees_some hmp]
        exact htw
      cases b with
      | true =>
        simp only [if_true] at heq
        have : h' = ⟨h.children_list ++ [m], h.size + 1,
            some (InternalTree.init v)⟩ := (Option.some.inj heq).symm
        subst this
        intro t ht
        rw [FibonacciHeap.trees_mk_some] at ht
        rcases List.mem_cons.mp ht with rfl | ht
        · exact hinit
        · rcases List.mem_append.mp ht with ht | ht
          · exact hmtrees t (List.mem_cons_of_mem m ht)
          · simp only [List.mem_singleton] at ht
            subst ht
            exact hmtrees t (List.mem_cons_self t h.children_list)
      | false =>
        simp only [if_false] at heq
        have : h' = ⟨h.children_list ++ [InternalTree.init v], h.size + 1,
            some m⟩ := (Option.some.inj heq).symm
        subst this
        intro t ht
        rw [FibonacciHeap.trees_mk_some] at ht
        rcases List.mem_cons.mp ht with rfl | ht
        · exact hmtrees t (List.mem_cons_self t h.children_list)
        · rcases List.mem_append.mp ht with ht | ht
          · exact hmtrees t (List.mem_cons_of_mem m ht)
          · simp only [List.mem_singleton] at ht
            subst ht
            exact hinit

theorem FibonacciHeap.pop_tw (h : FibonacciHeap) (v : Option Int)
    (h' : FibonacciHeap) (heq : h.pop = some (v, h'))
    (htw : ∀ t ∈ h.trees, t.twB = true) :
    ∀ t ∈ h'.trees, t.twB = true := by
  unfold FibonacciHeap.pop at heq
  by_cases h0 : h.size = 0
  · rw [if_pos h0] at heq
    have : h = h' := congrArg Prod.snd (Option.some.inj heq)
    subst this
    exact htw
  · rw [if_neg h0] at heq
    cases hmp : h.min_pointer with
    | none =>
      simp only [hmp] at heq
      exact Option.noConfusion heq
    | some m =>
      simp only [hmp] at heq
      have hm : m.twB = true := htw m (by
        rw [FibonacciHeap.trees_some hmp]
        exact List.mem_cons_self m h.children_list)
      have hroots : ∀ t ∈ h.children_list ++ m.children_list, t.twB = true := by
        intro t ht
        rcases List.mem_append.mp ht with ht | ht
        · exact htw t (by
            rw [FibonacciHeap.trees_some hmp]
            exact List.mem_cons_of_mem m ht)
        · exact InternalTree.tw_children hm t ht
      cases hpp : m.peek_payload with
      | none =>
        simp only [hpp] at heq
        exact Option.noConfusion heq
      | some payload =>
        simp only [hpp] at heq
        by_cases hsz1 : h.size - 1 = 0
        · rw [if_pos hsz1] at heq
          have : h' = ⟨h.children_list ++ m.children_list, 0, none⟩ :=
            congrArg Prod.snd (Option.some.inj heq) |>.symm
          subst this
          intro t ht
          rw [FibonacciHeap.trees_mk_none] at ht
          exact hroots t ht
        · rw [if_neg hsz1] at heq
          cases hcons : FibonacciHeap.consolidate
              ⟨(h.children_list ++ m.children_list).tail, h.size - 1,
                (h.children_list ++ m.children_list).head?⟩ with
          | none =>
            simp only [hcons] at heq
            exact Option.noConfusion heq
          | some hc =>
            simp only [hcons] at heq
            have : h' = hc := congrArg Prod.snd (Option.some.inj heq) |>.symm
            subst this
            apply FibonacciHeap.consolidate_tw _ _ hcons
            intro t ht
            apply hroots
            cases hr : h.children_list ++ m.children_list with
            | nil =>
              rw [hr] at ht
              simp only [List.tail_nil, List.head?_nil,
                FibonacciHeap.trees_mk_none] at ht
              simp at ht
            | cons r rs =>
              rw [hr] at ht
              simp only [List.tail_cons, List.head?_cons,
                FibonacciHeap.trees_mk_some] at ht
              exact ht

theorem FibonacciHeap.merge_heap_tw (h1 h2 h' : FibonacciHeap)
    (heq : FibonacciHeap.merge h1 h2 = some h')
    (htw1 : ∀ t ∈ h1.trees, t.twB = true)
    (htw2 : ∀ t ∈ h2.trees, t.twB = true) :
    ∀ t ∈ h'.trees, t.twB = true := by
  unfold FibonacciHeap.merge at heq
  cases hm2 : h2.min_pointer with
  | none =>
    simp only [hm2] at heq
    exact Option.noConfusion heq
  | some m2 =>
    cases hm1 : h1.min_pointer with
    | none =>
      simp only [hm2, hm1] at heq
      exact Option.noConfusion heq
    | some m1 =>
      simp only [hm2, hm1] at heq
      have hm1t : m1.twB = true := htw1 m1 (by
        rw [FibonacciHeap.trees_some hm1]
        exact List.mem_cons_self m1 h1.children_list)
      have hm2t : m2.twB = true := htw2 m2 (by
        rw [FibonacciHeap.trees_some hm2]
        exact List.mem_cons_self m2 h2.children_list)
      have hch : ∀ t ∈ h1.children_list ++ h2.children_list, t.twB = true := by
        intro t ht
        rcases List.mem_append.mp ht with ht | ht
        · exact htw1 t (by
            rw [FibonacciHeap.trees_some hm1]
            exact List.mem_cons_of_mem m1 ht)
        · exact htw2 t (by
            rw [FibonacciHeap.trees_some hm2]
            exact List.mem_cons_of_mem m2 ht)
      cases hcmp : InternalTree.is_smaller_or_equal m2 m1 with
      | none =>
        simp only [hcmp] at heq
        exact Option.noConfusion heq
      | some b =>
        simp only [hcmp] at heq
        cases b with
        | true =>
          simp only [if_true] at heq
          have : h' = ⟨(h1.children_list ++ h2.children_list) ++ [m1],
              h1.size + h2.size, some m2⟩ := (Option.some.inj heq).symm
          subst this
          intro t ht
          rw [FibonacciHeap.trees_mk_some] at ht
          rcases List.mem_cons.mp ht with rfl | ht
          · exact hm2t
          · rcases List.mem_append.mp ht with ht | ht
            · exact hch t ht
            · simp only [List.mem_singleton] at ht
              subst ht
              exact hm1t
        | false =>
          simp only [if_false] at heq
          cases hpp : m2.peek_payload with
          | none =>
            simp only [hpp] at heq
            exact Option.noConfusion heq
          | some p2 =>
            simp only [hpp] at heq
            cases hpush : FibonacciHeap.push
                ⟨h1.children_list ++ h2.children_list, h1.size, some m1⟩
                p2 with
            | none =>
              simp only [hpush] at heq
              exact Option.noConfusion heq
            | some hp =>
              simp only [hpush] at heq
              have hh' : h' = { hp with size := hp.size + (h2.size - 1) } :=
                (Option.some.inj heq).symm
              subst hh'
              have hptw : ∀ t ∈ hp.trees, t.twB = true := by
                apply FibonacciHeap.push_tw _ p2 _ hpush
                intro t ht
                rw [FibonacciHeap.trees_mk_some] at ht
                rcases List.mem_cons.mp ht with rfl | ht
                · exact hm1t
                · exact hch t ht
              intro t ht
              apply hptw
              unfold FibonacciHeap.trees at ht ⊢
              exact ht

theorem FibonacciHeap.reachable_tw (h : FibonacciHeap)
    (hr : FibonacciHeap.Reachable h) : ∀ t ∈ h.trees, t.twB = true := by
  induction hr with
  | init => simp [FibonacciHeap.init, FibonacciHeap.trees]
  | push h h' v _ heq ih => exact FibonacciHeap.push_tw h v h' heq ih
  | merge h1 h2 h' _ _ _ _ heq ih1 ih2 =>
    exact FibonacciHeap.merge_heap_tw h1 h2 h' heq ih1 ih2
  | pop h h' v _ heq ih => exact FibonacciHeap.pop_tw h v h' heq ih

/-- C5: in every heap reachable by `init`, `push`, `merge` of non-empty
operands, and `pop`, every tree held by the heap is intact and
heap-ordered: throughout each tree, every child's payload is `≥` its
parent's payload. -/
theorem C5_reachable_heap_order (h : FibonacciHeap)
    (hr : FibonacciHeap.Reachable h) :
    ∀ t ∈ h.trees, t.intactB = true ∧ t.hordB = true := by
  intro t ht
  have := FibonacciHeap.reachable_tw h hr t ht
  simp only [InternalTree.twB, Bool.and_eq_true] at this
  exact this

/-- Witness for C5, applied to the heap reached by one push. -/
theorem C5_witness :
    (InternalTree.init 0).intactB = true ∧
      (InternalTree.init 0).hordB = true :=
  C5_reachable_heap_order ⟨[], 1, some (InternalTree.init 0)⟩
    (FibonacciHeap.Reachable.push FibonacciHeap.init
      ⟨[], 1, some (InternalTree.init 0)⟩ 0
      FibonacciHeap.Reachable.init rfl)
    (InternalTree.init 0) (by rw [FibonacciHeap.trees_mk_some]; simp)

theorem InternalTree.wfTreeB_bin {t : InternalTree} (h : t.wfTreeB = true) :
    t.binB = true := by
  simp only [InternalTree.wfTreeB, Bool.and_eq_true] at h
  exact h.2

theorem InternalTree.count_le_countList {t : InternalTree}
    {ts : List InternalTree} (ht : t ∈ ts) :
    t.count ≤ InternalTree.countList ts := by
  induction ts with
  | nil => simp at ht
  | cons u rest ih =>
    simp only [InternalTree.countList]
    rcases List.mem_cons.mp ht with rfl | ht
    · omega
    · have := ih ht
      omega

theorem degree_le_logb {n d : Nat} (hn : 1 ≤ n) (hd : 2 ^ d ≤ n) :
    (d : ℤ) ≤ ⌊Real.logb 1.61803 (n : ℝ)⌋ + 1 := by
  have h1 : d ≤ Nat.log 2 n := Nat.le_log_of_pow_le (by norm_num) hd
  have h2 : (Nat.log 2 n : ℝ) ≤ Real.logb 2 (n : ℝ) := by
    have := Real.natLog_le_logb n 2
    simpa using this
  have h3 : Real.logb 2 (n : ℝ) ≤ Real.logb 1.61803 (n : ℝ) := by
    unfold Real.logb
    apply div_le_div_of_nonneg_left
    · exact Real.log_nonneg (by exact_mod_cast hn)
    · exact Real.log_pos (by norm_num)
    · exact Real.log_le_log (by norm_num) (by norm_num)
  have h4 : (d : ℝ) ≤ Real.logb 1.61803 (n : ℝ) := by
    calc (d : ℝ) ≤ (Nat.log 2 n : ℝ) := by exact_mod_cast h1
    _ ≤ Real.logb 2 (n : ℝ) := h2
    _ ≤ Real.logb 1.61803 (n : ℝ) := h3
  have h5 : (d : ℤ) ≤ ⌊Real.logb 1.61803 (n : ℝ)⌋ := by
    rw [Int.le_floor]
    push_cast
    exact h4
  omega

/-- C6: consolidating a well-formed heap holding n elements (n ≥ 1)
succeeds — the degree-indexed bucket array is never indexed out of
bounds — and afterwards the degree of every tree (the min tree and every
root) is at most `⌊log φ n⌋ + 1` with `φ = 1.61803`. -/
theorem C6_degree_bound (h : FibonacciHeap) (n : Nat) (hw : h.wfB = true)
    (hn : h.size = n) (hpos : 1 ≤ n) :
    ∃ h', h.consolidate = some h' ∧
      ∀ t ∈ h'.trees, (t.degree : ℤ) ≤ ⌊Real.logb 1.61803 (n : ℝ)⌋ + 1 := by
  subst hn
  cases hmp : h.min_pointer with
  | none =>
    exfalso
    obtain ⟨_, h0⟩ := FibonacciHeap.wfB_empty hw hmp
    omega
  | some m =>
    obtain ⟨hwf, hsz⟩ := FibonacciHeap.wfB_parts hw
    obtain ⟨h', heq, hw', hsz', _⟩ :=
      FibonacciHeap.consolidate_ok h m hmp hwf hsz hpos
    refine ⟨h', heq, ?_⟩
    intro t ht
    obtain ⟨hwf', hszc⟩ := FibonacciHeap.wfB_parts hw'
    have hc := InternalTree.bin_count t (InternalTree.wfTreeB_bin (hwf' t ht))
    have hle := InternalTree.count_le_countList ht
    exact degree_le_logb hpos (by omega)

/-- Witness for C6 on the singleton well-formed heap of size 1. -/
theorem C6_witness :
    (FibonacciHeap.mk [] 1 (some (InternalTree.init 0))).wfB = true ∧
    ∃ h', (FibonacciHeap.mk [] 1 (some (InternalTree.init 0))).consolidate =
        some h' ∧
      ∀ t ∈ h'.trees,
        (t.degree : ℤ) ≤ ⌊Real.logb 1.61803 ((1 : Nat) : ℝ)⌋ + 1 :=
  ⟨by decide, C6_degree_bound ⟨[], 1, some (InternalTree.init 0)⟩ 1
    (by decide) rfl (le_refl 1)⟩

/-- Witness for C1 at the concrete input sequence `[2, 1]`. -/
theorem C1_witness :
    ∃ (h : FibonacciHeap) (zs : List Int) (hf : FibonacciHeap),
      FibonacciHeap.init.pushList [2, 1] = some h ∧
      FibonacciHeap.popN (List.length [2, 1]) h = some (zs.map some, hf) ∧
      zs.Perm [2, 1] ∧ List.Sorted (· ≤ ·) zs ∧
      hf.pop = some (none, hf) :=
  C1_sorted_extraction [2, 1]
